import Mathlib

/-!
# market-data-api: normalisation and snapshot cache

A shallow embedding of `api/api.go`: the fixed-point decoder `fromBigNumber`, the
product normaliser `NewMarket` with `getSecondsToFunding`, and the refresh cycle
`UpdateCache`, followed by the properties established about them.

Conventions of the embedding.

* Go strings are lists of characters (`Str`); the text handled here is valid UTF-8 and
  the patterns searched for are ASCII, so matching on characters and on bytes agree.
* `int64` and `uint64` values are integers and naturals; every arithmetic operation that
  can leave the range is followed by the explicit wrap-around (`wrap64`, `% 2^64`).
* A Go panic (nil dereference, index out of range, integer or decimal division by zero)
  is the result `none`.
* `float64` is an arbitrary linearly ordered type `F` with a zero: the values produced
  here are never NaN, and on those the IEEE comparison is a linear order (with the two
  signed zeros identified). The conversions into `F` come from the libraries and are
  the fields of `StdLib`.
-/

namespace MarketDataApi

/-! ## Strings -/

/-- A Go string. -/
abbrev Str := List Char

/-- Go `strings.Contains(s, substr)`. -/
def Contains : Str → Str → Bool
  | [], substr => substr.isEmpty
  | c :: cs, substr => substr.isPrefixOf (c :: cs) || Contains cs substr

/-- The scan of `strings.ReplaceAll`: the counter is the number of characters of a
matched occurrence of `old` still to be skipped. -/
def replaceFrom (old new : Str) : Nat → Str → Str
  | _, [] => []
  | k + 1, _ :: cs => replaceFrom old new k cs
  | 0, c :: cs =>
    if old.isPrefixOf (c :: cs) then new ++ replaceFrom old new (old.length - 1) cs
    else c :: replaceFrom old new 0 cs

/-- Go `strings.ReplaceAll(s, old, new)` for a non-empty `old` (every call site passes a
non-empty literal): the non-overlapping occurrences of `old`, found left to right, are
replaced by `new`. -/
def ReplaceAll (s old new : Str) : Str := replaceFrom old new 0 s

/-- The decimal digit character of a number below ten. -/
def digitChar (n : Nat) : Char := Char.ofNat (48 + n)

/-- The digits of `n`, most significant first, pushed in front of `acc`. -/
def formatDigits : Nat → Nat → Str → Str
  | 0, _, acc => acc
  | fuel + 1, n, acc =>
    if n / 10 = 0 then digitChar (n % 10) :: acc
    else formatDigits fuel (n / 10) (digitChar (n % 10) :: acc)

/-- Go `fmt.Sprintf("%d", n)` for an unsigned integer. -/
def FormatUint (n : Nat) : Str := formatDigits (n + 1) n []

/-- Go `big.Int.String`: decimal digits with a leading minus sign for negatives. -/
def FormatInt (n : Int) : Str :=
  if n < 0 then '-' :: FormatUint n.natAbs else FormatUint n.natAbs

/-- The value of a decimal digit character. -/
def digitValue (c : Char) : Option Nat :=
  if 48 ≤ c.toNat ∧ c.toNat ≤ 57 then some (c.toNat - 48) else none

/-- Reads decimal digits to the end of the string, continuing from `acc`. -/
def parseDigitsFrom : Nat → Str → Option Nat
  | acc, [] => some acc
  | acc, c :: cs =>
    match digitValue c with
    | some d => parseDigitsFrom (10 * acc + d) cs
    | none => none

/-- A non-empty string of decimal digits. -/
def parseUnsigned (s : Str) : Option Nat :=
  if s.isEmpty then none else parseDigitsFrom 0 s

/-- Base-10 integer syntax shared by `strconv.ParseInt` and `big.Int.SetString`: an
optional sign and a non-empty string of digits. -/
def parseSigned : Str → Option Int
  | '+' :: rest => (parseUnsigned rest).map Int.ofNat
  | '-' :: rest => (parseUnsigned rest).map (fun n => -(Int.ofNat n))
  | s => (parseUnsigned s).map Int.ofNat

/-! ## Machine integers -/

/-- Smallest `int32`. -/
def MinInt32 : Int := -2147483648

/-- Largest `int32`. -/
def MaxInt32 : Int := 2147483647

/-- Smallest `int64`. -/
def MinInt64 : Int := -9223372036854775808

/-- Largest `int64`. -/
def MaxInt64 : Int := 9223372036854775807

/-- The `int64` value a mathematical integer wraps to. -/
def wrap64 (x : Int) : Int := (x + 9223372036854775808) % 18446744073709551616 - 9223372036854775808

/-- Go conversion `int64(v)` of a `uint64`. -/
def toInt64 (v : Nat) : Int := wrap64 (Int.ofNat v)

/-- Go conversion `uint64(x)` of an `int64`. -/
def toUint64 (x : Int) : Nat := (x % 18446744073709551616).toNat

/-- Go `a + b` on `int64`. -/
def add64 (a b : Int) : Int := wrap64 (a + b)

/-- Go `a - b` on `int64`. -/
def sub64 (a b : Int) : Int := wrap64 (a - b)

/-- Go `a * b` on `int64`. -/
def mul64 (a b : Int) : Int := wrap64 (a * b)

/-- Go `a / b` on `int64`: truncated division, a panic when `b` is zero. -/
def div64 (a b : Int) : Option Int := if b = 0 then none else some (wrap64 (Int.tdiv a b))

/-- Go `a % b` on `int64`: the remainder of truncated division, a panic when `b` is
zero. -/
def mod64 (a b : Int) : Option Int := if b = 0 then none else some (wrap64 (Int.tmod a b))

/-! ## The decimal library (`shopspring/decimal`) -/

/-- A `decimal.Decimal`: the number `value * 10 ^ exp`. -/
structure Decimal where
  value : Int
  exp : Int
deriving DecidableEq, Repr

namespace Decimal

/-- The library constant `DivisionPrecision`. -/
def DivisionPrecision : Int := 16

/-- The constant `decimal.Zero`, which the library defines as `New(0, 1)`. -/
def Zero : Decimal := ⟨0, 1⟩

/-- The constructor `decimal.NewFromInt`. -/
def NewFromInt (v : Int) : Decimal := ⟨v, 0⟩

/-- The method `rescale`: the same number at exponent `exp`, truncated when the exponent
grows. -/
def rescale (d : Decimal) (exp : Int) : Decimal :=
  if d.exp = exp then d
  else if d.exp < exp then ⟨Int.tdiv d.value (10 ^ (exp - d.exp).toNat), exp⟩
  else ⟨d.value * 10 ^ (d.exp - exp).toNat, exp⟩

/-- The method `Add`: both operands are rescaled to the smaller exponent. -/
def Add (d d2 : Decimal) : Decimal :=
  let e := min d.exp d2.exp
  ⟨(d.rescale e).value + (d2.rescale e).value, e⟩

/-- The method `Cmp` as a sign: negative, zero or positive. -/
def Cmp (d d2 : Decimal) : Int :=
  let e := min d.exp d2.exp
  Int.sign ((d.rescale e).value - (d2.rescale e).value)

/-- The method `QuoRem`: quotient truncated at `precision` decimal places and the
remainder. It panics on a zero divisor and when the working exponent leaves `int32`. -/
def QuoRem (d d2 : Decimal) (precision : Int) : Option (Decimal × Decimal) :=
  if d2.value = 0 then none
  else
    let scale := -precision
    let e := d.exp - d2.exp - scale
    if MaxInt32 < e ∨ e < MinInt32 then none
    else if e < 0 then
      let bb := d2.value * 10 ^ (-e).toNat
      some (⟨Int.tdiv d.value bb, scale⟩, ⟨Int.tmod d.value bb, d.exp⟩)
    else
      let aa := d.value * 10 ^ e.toNat
      some (⟨Int.tdiv aa d2.value, scale⟩, ⟨Int.tmod aa d2.value, scale + d2.exp⟩)

/-- The method `DivRound`: the quotient at `precision` decimal places, rounded half away
from zero. -/
def DivRound (d d2 : Decimal) (precision : Int) : Option Decimal :=
  match QuoRem d d2 precision with
  | none => none
  | some (q, r) =>
    let r2 : Decimal := ⟨r.value.natAbs * 2, r.exp + precision⟩
    if Cmp r2 ⟨d2.value.natAbs, d2.exp⟩ < 0 then some q
    else if Int.sign d.value * Int.sign d2.value < 0 then some (Add q ⟨-1, -precision⟩)
    else some (Add q ⟨1, -precision⟩)

/-- The method `Div`: `DivRound` at `DivisionPrecision`. -/
def Div (d d2 : Decimal) : Option Decimal := DivRound d d2 DivisionPrecision

/-- The call `decimal.NewFromInt(10).Pow(decimal.NewFromInt(e))`: the exact power for a
non-negative exponent; for a negative one the reciprocal of the exact power, rounded to
sixteen decimal places. -/
def PowTen (e : Int) : Option Decimal :=
  if 0 ≤ e then some ⟨10 ^ e.toNat, 0⟩
  else DivRound ⟨1, 0⟩ ⟨10 ^ (-e).toNat, 0⟩ 16

/-- Position of the first `E` or `e`, as `strings.IndexAny(value, "Ee")` finds it: the
text before it and the text after it. -/
def splitExponent : Str → Option (Str × Str)
  | [] => none
  | c :: cs =>
    if c = 'E' ∨ c = 'e' then some ([], cs)
    else match splitExponent cs with
      | some (before, after) => some (c :: before, after)
      | none => none

/-- Splits a string at its first decimal point. -/
def splitPoint : Str → Option (Str × Str)
  | [] => none
  | c :: cs =>
    if c = '.' then some ([], cs)
    else match splitPoint cs with
      | some (before, after) => some (c :: before, after)
      | none => none

/-- The coefficient and exponent shift of the mantissa text: no point, or exactly one
point whose fractional digits lower the exponent. -/
def parseMantissa (value : Str) : Option (Int × Int) :=
  match splitPoint value with
  | none => (parseSigned value).map (fun v => (v, 0))
  | some (whole, frac) =>
    if Contains frac ['.'] then none
    else (parseSigned (whole ++ frac)).map (fun v => (v, -(Int.ofNat frac.length)))

/-- The constructor `decimal.NewFromString`; `none` is the error result. -/
def NewFromString (value : Str) : Option Decimal :=
  let parts : Option (Str × Int) :=
    match splitExponent value with
    | none => some (value, 0)
    | some (mantissa, expText) =>
      match parseSigned expText with
      | some e => if MinInt32 ≤ e ∧ e ≤ MaxInt32 then some (mantissa, e) else none
      | none => none
  match parts with
  | none => none
  | some (mantissa, e) =>
    match parseMantissa mantissa with
    | none => none
    | some (v, shift) =>
      if e + shift < MinInt32 ∨ MaxInt32 < e + shift then none else some ⟨v, e + shift⟩

/-- The fractional digits of `String` with the trailing zeros removed. -/
def trimTrailingZeros (s : Str) : Str := (s.reverse.dropWhile (fun c => c = '0')).reverse

/-- The method `String`: plain decimal notation without trailing fractional zeros. -/
def String (d : Decimal) : Str :=
  if 0 ≤ d.exp then FormatInt (d.rescale 0).value
  else
    let str := FormatUint d.value.natAbs
    let places := (-d.exp).toNat
    let intPart := if places < str.length then str.take (str.length - places) else ['0']
    let fractionalPart :=
      if places < str.length then str.drop (str.length - places)
      else List.replicate (places - str.length) '0' ++ str
    let fractionalPart := trimTrailingZeros fractionalPart
    let number := if fractionalPart.isEmpty then intPart else intPart ++ '.' :: fractionalPart
    if d.value < 0 then '-' :: number else number

/-- The rational number a decimal stands for. -/
def toRat (d : Decimal) : ℚ := d.value * (10 : ℚ) ^ d.exp

end Decimal

/-! ## Library functions taken as parameters -/

/-- The standard-library and float operations the program calls, over the carrier `F`
of `float64` values. -/
structure StdLib (F : Type) where
  /-- The method `Decimal.InexactFloat64`: the nearest `float64`. -/
  InexactFloat64 : Decimal → F
  /-- The call `strconv.ParseFloat(s, 64)` with its error discarded. -/
  ParseFloat : Str → F
  /-- The `float64` product. -/
  mul : F → F → F
  /-- The call `time.Parse(time.RFC3339, s)`: the `UnixMilli` of the parsed time, `none`
  when parsing fails. -/
  ParseRFC3339 : Str → Option Int

/-- The `UnixMilli` of Go's zero `time.Time` (1 January of year 1, UTC), which
`time.Parse` returns together with an error. -/
def zeroTimeUnixMilli : Int := -62135596800000

/-- The code `t, _ := time.Parse(time.RFC3339, s); t.UnixMilli()`. -/
def parseUnixMilli {F : Type} (std : StdLib F) (s : Str) : Int :=
  match std.ParseRFC3339 s with
  | some ms => ms
  | none => zeroTimeUnixMilli

/-! ## `fromBigNumber` -/

/-- The function `fromBigNumber` (api.go 25-29): the parse error is discarded, leaving
the zero decimal; the modifier is ten to the power `int64(decimals)`. -/
def fromBigNumber {F : Type} (std : StdLib F) (number : Str) (decimals : Nat) : Option F :=
  let bigNumber := (Decimal.NewFromString number).getD ⟨0, 0⟩
  (Decimal.PowTen (toInt64 decimals)).bind fun modifier =>
  (bigNumber.Div modifier).map std.InexactFloat64

/-! ## Upstream records -/

/-- One `InternalTimeTrigger` of a funding schedule: `Initial` is an optional field, read
through `GetInitial`. -/
structure vega.InternalTimeTrigger where
  Initial : Option Int
  Every : Int
deriving DecidableEq, Repr

/-- The getter `GetInitial`: zero when the field is unset. -/
def vega.InternalTimeTrigger.GetInitial (t : vega.InternalTimeTrigger) : Int := t.Initial.getD 0

/-- The product of an instrument, as `GetFuture`, `GetSpot` and `GetPerpetual` expose it.
For a perpetual, `Triggers` is the trigger list reached through
`DataSourceSpecForSettlementSchedule.Data.GetInternal().GetTimeTrigger().Triggers`, and
`none` when a pointer on that path is nil, where the code panics. `unset` is an instrument
with none of the three products. -/
inductive vega.Product where
  | future (SettlementAsset : Str)
  | spot (QuoteAsset : Str)
  | perpetual (SettlementAsset : Str) (Triggers : Option (List vega.InternalTimeTrigger))
  | unset
deriving DecidableEq, Repr

/-- The fields of `vega.Market` the program reads; `Code`, `Tags` and `Product` are those
of `TradableInstrument.Instrument`, `Active` is `State == STATE_ACTIVE`. -/
structure vega.Market where
  Id : Str
  Active : Bool
  DecimalPlaces : Nat
  PositionDecimalPlaces : Int
  Code : Str
  Tags : List Str
  Product : vega.Product
deriving DecidableEq, Repr

/-- The perpetual part of `MarketData.ProductData`. -/
structure vega.PerpetualData where
  ExternalTwap : Str
  FundingRate : Str
deriving DecidableEq, Repr

/-- The fields of `vega.MarketData` the program reads; `PerpetualData` is
`ProductData.GetPerpetualData()`, `none` when that getter returns nil. -/
structure vega.MarketData where
  LastTradedPrice : Str
  BestBidPrice : Str
  BestOfferPrice : Str
  OpenInterest : Nat
  PerpetualData : Option vega.PerpetualData
deriving DecidableEq, Repr

/-- The fields of `vega.Asset` the program reads: `Decimals` is `GetDetails().Decimals`,
`none` when `GetDetails()` returns nil. -/
structure vega.Asset where
  Decimals : Option Nat
deriving DecidableEq, Repr

/-- One `apipb.Candle`: prices as fixed-point strings, volume and notional as `uint64`. -/
structure apipb.Candle where
  High : Str
  Low : Str
  Volume : Nat
  Notional : Nat
deriving DecidableEq, Repr

/-- One `vega.PriceLevel` of the market depth. -/
structure vega.PriceLevel where
  Price : Str
  Volume : Nat
deriving DecidableEq, Repr

/-! ## `Market` and `NewMarket` -/

/-- The published record `Market` (api.go 31-58). -/
structure Market (F : Type) where
  TickerId : Str
  BaseCurrency : Str
  TargetCurrency : Str
  LastPrice : F
  BaseVolume : F
  TargetVolume : F
  Bid : F
  Ask : F
  High : F
  Low : F
  ProductType : Str
  OpenInterest : F
  OpenInterestUsd : F
  IndexPrice : F
  IndexName : Str
  IndexCurrency : Str
  CreationTimestamp : Int
  StartTimestamp : Int
  ExpiryTimestamp : Int
  EndTimestamp : Int
  FundingRate : F
  NextFundingRate : F
  NextFundingRateTimestamp : Int
  ContractType : Str
  ContractPrice : F
  ContractPriceCurrency : Str
deriving DecidableEq, Repr

/-- The function `getSecondsToFunding` (api.go 60-65). It panics when the market is not a
perpetual with a reachable trigger list, when the list is empty (`Triggers[0]`) and when
`Every` is zero (`%`). -/
def getSecondsToFunding (market : vega.Market) (vegaTime : Int) : Option Int :=
  match market.Product with
  | vega.Product.perpetual _ (some (timeTrigger :: _)) =>
    (div64 vegaTime 1000000000).bind fun vegaTime =>
    (mod64 (sub64 vegaTime timeTrigger.GetInitial) timeTrigger.Every).bind fun r =>
    some (sub64 timeTrigger.Every r)
  | _ => none

/-- The four strings the tag loop of `NewMarket` assigns (api.go 76-79). -/
structure TagFields where
  baseCurrency : Str
  targetCurrency : Str
  enactmentTimestamp : Str
  settlementTimestamp : Str
deriving DecidableEq, Repr

/-- The body of the tag loop (api.go 81-89). -/
def scanTag (acc : TagFields) (tag : Str) : TagFields :=
  if Contains tag "base:".toList then
    { acc with baseCurrency := ReplaceAll tag "base:".toList [] }
  else if Contains tag "quote:".toList then
    { acc with targetCurrency := ReplaceAll tag "quote:".toList [] }
  else if Contains tag "enactment:".toList then
    { acc with enactmentTimestamp := ReplaceAll tag "enactment:".toList [] }
  else if Contains tag "settlement:".toList then
    { acc with settlementTimestamp := ReplaceAll tag "settlement:".toList [] }
  else acc

/-- The tag loop of `NewMarket` (api.go 76-90). -/
def scanTags (tags : List Str) : TagFields := tags.foldl scanTag ⟨[], [], [], []⟩

/-- The running values of the candle loop of `NewMarket` (api.go 91-94). -/
structure CandleTotals (F : Type) where
  high : F
  low : F
  baseVolume : Decimal
  targetVolume : Decimal
deriving DecidableEq, Repr

/-- The body of the candle loop (api.go 96-107). -/
def candleStep {F : Type} [LinearOrder F] [Zero F] (std : StdLib F) (dp : Nat)
    (acc : CandleTotals F) (candle : apipb.Candle) : Option (CandleTotals F) :=
  (fromBigNumber std candle.High dp).bind fun h =>
  (fromBigNumber std candle.Low dp).bind fun l =>
  some {
    high := if acc.high = 0 ∨ acc.high < h then h else acc.high
    low := if acc.low = 0 ∨ l < acc.low then l else acc.low
    baseVolume := acc.baseVolume.Add (Decimal.NewFromInt (toInt64 candle.Volume))
    targetVolume := acc.targetVolume.Add (Decimal.NewFromInt (toInt64 candle.Notional)) }

/-- The candle loop of `NewMarket` (api.go 91-108), from a given running state. -/
def candleLoop {F : Type} [LinearOrder F] [Zero F] (std : StdLib F) (dp : Nat) :
    CandleTotals F → List apipb.Candle → Option (CandleTotals F)
  | acc, [] => some acc
  | acc, candle :: rest => (candleStep std dp acc candle).bind fun acc => candleLoop std dp acc rest

/-- The product-dependent values of `NewMarket` (api.go 112-120). -/
structure ProductFields (F : Type) where
  productType : Str
  startTimestamp : Int
  endTimestamp : Int
  fundingRate : F
  nextFundingRate : F
  nextFundingRateTimestamp : Int
  indexPrice : F
  indexName : Str
  indexCurrency : Str
deriving DecidableEq, Repr

/-- The values of the variables of api.go 112-120 when no product branch runs. -/
def noProduct {F : Type} [Zero F] : ProductFields F where
  productType := []
  startTimestamp := 0
  endTimestamp := 0
  fundingRate := 0
  nextFundingRate := 0
  nextFundingRateTimestamp := 0
  indexPrice := 0
  indexName := []
  indexCurrency := []

/-- The perpetual branch of `NewMarket` (api.go 130-140). -/
def perpetualFields {F : Type} [Zero F] (std : StdLib F) (market : vega.Market)
    (marketData : Option vega.MarketData) (asset : Option vega.Asset) (vegaTime : Int)
    (tags : TagFields) : Option (ProductFields F) :=
  marketData.bind fun md =>
  md.PerpetualData.bind fun perpData =>
  asset.bind fun a =>
  a.Decimals.bind fun decimals =>
  (fromBigNumber std perpData.ExternalTwap decimals).bind fun indexPrice =>
  (getSecondsToFunding market vegaTime).bind fun secondsToFunding =>
  (div64 (add64 vegaTime (mul64 secondsToFunding 1000000000)) 1000000000).bind fun q =>
  some {
    productType := "Perpetual".toList
    startTimestamp := parseUnixMilli std tags.enactmentTimestamp
    endTimestamp := mul64 q 1000
    fundingRate := std.ParseFloat perpData.FundingRate
    nextFundingRate := std.ParseFloat perpData.FundingRate
    nextFundingRateTimestamp := mul64 q 1000
    indexPrice := indexPrice
    indexName := tags.baseCurrency
    indexCurrency := tags.targetCurrency }

/-- The product dispatch of `NewMarket` (api.go 109-141). -/
def productFields {F : Type} [Zero F] (std : StdLib F) (market : vega.Market)
    (marketData : Option vega.MarketData) (asset : Option vega.Asset) (vegaTime : Int)
    (tags : TagFields) : Option (ProductFields F) :=
  match market.Product with
  | vega.Product.future _ =>
    some { (noProduct : ProductFields F) with
      productType := "Futures".toList
      startTimestamp := parseUnixMilli std tags.enactmentTimestamp
      endTimestamp := parseUnixMilli std tags.settlementTimestamp }
  | vega.Product.spot _ => some { (noProduct : ProductFields F) with productType := "Spot".toList }
  | vega.Product.perpetual _ _ => perpetualFields std market marketData asset vegaTime tags
  | vega.Product.unset => some noProduct

/-- The function `NewMarket` (api.go 67-173). `marketData` and `asset` are pointers:
`none` is nil. -/
def NewMarket {F : Type} [LinearOrder F] [Zero F] (std : StdLib F) (market : vega.Market)
    (marketData : Option vega.MarketData) (candles : List apipb.Candle)
    (asset : Option vega.Asset) (vegaTime : Int) : Option (Market F) :=
  let dp := market.DecimalPlaces
  let pdp := toUint64 market.PositionDecimalPlaces
  let tags := scanTags market.Tags
  (candleLoop std dp ⟨0, 0, Decimal.Zero, Decimal.Zero⟩ candles).bind fun totals =>
  (productFields std market marketData asset vegaTime tags).bind fun product =>
  marketData.bind fun md =>
  (fromBigNumber std md.LastTradedPrice dp).bind fun lastPrice =>
  (fromBigNumber std (FormatUint md.OpenInterest) pdp).bind fun openInterest =>
  (fromBigNumber std totals.baseVolume.String pdp).bind fun baseVolume =>
  (fromBigNumber std totals.targetVolume.String
    ((dp + pdp) % 18446744073709551616)).bind fun targetVolume =>
  (fromBigNumber std md.BestBidPrice dp).bind fun bid =>
  (fromBigNumber std md.BestOfferPrice dp).bind fun ask =>
  some {
    TickerId := ReplaceAll market.Code "/".toList []
    BaseCurrency := tags.baseCurrency
    TargetCurrency := tags.targetCurrency
    LastPrice := lastPrice
    BaseVolume := baseVolume
    TargetVolume := targetVolume
    Bid := bid
    Ask := ask
    High := totals.high
    Low := totals.low
    ProductType := product.productType
    OpenInterest := openInterest
    OpenInterestUsd := std.mul openInterest lastPrice
    IndexPrice := product.indexPrice
    IndexName := product.indexName
    IndexCurrency := product.indexCurrency
    StartTimestamp := product.startTimestamp
    CreationTimestamp := product.startTimestamp
    EndTimestamp := product.endTimestamp
    ExpiryTimestamp := product.endTimestamp
    FundingRate := product.fundingRate
    NextFundingRate := product.nextFundingRate
    NextFundingRateTimestamp := product.nextFundingRateTimestamp
    ContractType := "Vanilla".toList
    ContractPrice := lastPrice
    ContractPriceCurrency := tags.targetCurrency }

/-! ## The cache and `UpdateCache` -/

/-- A Go slice that may be nil: `none` is the nil slice, `some []` an empty non-nil one. -/
abbrev Slice (α : Type) := Option (List α)

/-- The record `CoinGeckoOrderBook` (api.go 175-179). -/
structure CoinGeckoOrderBook (F : Type) where
  TickerId : Str
  Bids : Slice (List F)
  Asks : Slice (List F)
deriving DecidableEq, Repr

/-- The cache `Api` (api.go 181-186) without its two locks: the market list and the map
from ticker to order book, `none` for a key that is absent. -/
structure Api (F : Type) where
  markets : List (Market F)
  orderBooks : Str → Option (CoinGeckoOrderBook F)

/-- The constructor `NewApi` (api.go 188-193). -/
def NewApi {F : Type} : Api F := ⟨[], fun _ => none⟩

/-- The responses of the data node during one refresh cycle, `none` for a call that
returns an error. `GetAsset` and `GetLatestMarketData` are also `none` when the response
carries a nil record. List elements are never nil. -/
structure DataNode where
  ListMarkets : Option (List vega.Market)
  GetLatestMarketData : Str → Option vega.MarketData
  GetAsset : Str → Option vega.Asset
  GetVegaTime : Option Int
  ListCandleData : Str → Int → Int → Option (List apipb.Candle)
  GetLatestMarketDepth : Str → Option (List vega.PriceLevel × List vega.PriceLevel)

/-- The method `GetOrderBook` (api.go 195-205): two nil slices on error. -/
def GetOrderBook (dn : DataNode) (id : Str) : List vega.PriceLevel × List vega.PriceLevel :=
  (dn.GetLatestMarketDepth id).getD ([], [])

/-- The method `GetCandles` (api.go 207-226): no candles on error. -/
def GetCandles (dn : DataNode) (id : Str) (fromTs toTs : Int) : List apipb.Candle :=
  (dn.ListCandleData ("trades_candle_5_minutes_".toList ++ id) fromTs toTs).getD []

/-- The method `GetMarkets` (api.go 228-245): the active markets in listing order, none
on error. -/
def GetMarkets (dn : DataNode) : List vega.Market :=
  (dn.ListMarkets.getD []).filter (fun node => node.Active)

/-- The method `GetAsset` (api.go 247-257). -/
def GetAsset (dn : DataNode) (id : Str) : Option vega.Asset := dn.GetAsset id

/-- The method `GetMarketData` (api.go 259-269). -/
def GetMarketData (dn : DataNode) (id : Str) : Option vega.MarketData :=
  dn.GetLatestMarketData id

/-- The method `GetVegaTime` (api.go 271-281): zero on error. -/
def GetVegaTime (dn : DataNode) : Int := dn.GetVegaTime.getD 0

/-- The asset id `UpdateCache` looks up for a market (api.go 294-302). -/
def assetIdOf (market : vega.Market) : Str :=
  match market.Product with
  | vega.Product.future settlementAsset => settlementAsset
  | vega.Product.spot quoteAsset => quoteAsset
  | vega.Product.perpetual settlementAsset _ => settlementAsset
  | vega.Product.unset => []

/-- One of the two price-level loops of `UpdateCache` (api.go 311-320): each level is
appended as `[qty, price]` to a slice that starts nil. -/
def levelLoop {F : Type} (std : StdLib F) (market : vega.Market) :
    Slice (List F) → List vega.PriceLevel → Option (Slice (List F))
  | arr, [] => some arr
  | arr, b :: rest =>
    (fromBigNumber std (FormatUint b.Volume) (toUint64 market.PositionDecimalPlaces)).bind
      fun qty =>
    (fromBigNumber std b.Price market.DecimalPlaces).bind fun price =>
    levelLoop std market (some (arr.getD [] ++ [[qty, price]])) rest

/-- The state of `UpdateCache` inside its loop: the shared cache and the local slice
`markets`. -/
structure CacheBuild (F : Type) where
  api : Api F
  markets : List (Market F)

/-- The body of the loop of `UpdateCache` (api.go 291-329) for one market; `startMs` and
`endMs` are `startTime.UnixMilli()` and `endTime.UnixMilli()`. -/
def updateMarket {F : Type} [LinearOrder F] [Zero F] (std : StdLib F) (dn : DataNode)
    (startMs endMs vegaTime : Int) (st : CacheBuild F) (market : vega.Market) :
    Option (CacheBuild F) :=
  let code := ReplaceAll market.Code "/".toList []
  let marketData := GetMarketData dn market.Id
  let assetId := assetIdOf market
  let asset := GetAsset dn assetId
  if assetId.length = 0 ∨ asset = none then some st
  else
    let candles := GetCandles dn market.Id (mul64 startMs 1000000) (mul64 endMs 1000000)
    let book := GetOrderBook dn market.Id
    (levelLoop std market none book.1).bind fun buysArr =>
    (levelLoop std market none book.2).bind fun sellsArr =>
    (NewMarket std market marketData candles asset vegaTime).bind fun m =>
    some {
      api := { st.api with
        orderBooks := Function.update st.api.orderBooks code
          (some { TickerId := code, Bids := buysArr, Asks := sellsArr }) }
      markets := st.markets ++ [m] }

/-- The loop of `UpdateCache` (api.go 290-330). -/
def updateLoop {F : Type} [LinearOrder F] [Zero F] (std : StdLib F) (dn : DataNode)
    (startMs endMs vegaTime : Int) : CacheBuild F → List vega.Market → Option (CacheBuild F)
  | st, [] => some st
  | st, market :: rest =>
    (updateMarket std dn startMs endMs vegaTime st market).bind fun st =>
    updateLoop std dn startMs endMs vegaTime st rest

/-- The method `UpdateCache` (api.go 283-335); `now` is `time.Now().UnixMilli()`. The
result `none` is a panic, which leaves the market list unpublished. -/
def UpdateCache {F : Type} [LinearOrder F] [Zero F] (std : StdLib F) (dn : DataNode)
    (now : Int) (a : Api F) : Option (Api F) :=
  let vegaMarkets := GetMarkets dn
  let endMs := now
  let startMs := now - 86400000
  let vegaTime := GetVegaTime dn
  (updateLoop std dn startMs endMs vegaTime { api := a, markets := [] } vegaMarkets).map
    fun st => { st.api with markets := st.markets }

/-- The markets of a cycle that `UpdateCache` keeps: active, with a non-empty asset id
whose lookup succeeds. -/
def resolvable (dn : DataNode) (market : vega.Market) : Bool :=
  !(assetIdOf market).isEmpty && (GetAsset dn (assetIdOf market)).isSome

/-- The call of `NewMarket` that `UpdateCache` makes for a market (api.go 328). -/
def normalize {F : Type} [LinearOrder F] [Zero F] (std : StdLib F) (dn : DataNode)
    (now : Int) (market : vega.Market) : Option (Market F) :=
  NewMarket std market (GetMarketData dn market.Id)
    (GetCandles dn market.Id (mul64 (now - 86400000) 1000000) (mul64 now 1000000))
    (GetAsset dn (assetIdOf market)) (GetVegaTime dn)

/-- The two order-book slices `UpdateCache` builds for a market (api.go 308-320). -/
def orderBookOf {F : Type} (std : StdLib F) (dn : DataNode) (market : vega.Market) :
    Option (Slice (List F) × Slice (List F)) :=
  (levelLoop std market none (GetOrderBook dn market.Id).1).bind fun buysArr =>
  (levelLoop std market none (GetOrderBook dn market.Id).2).bind fun sellsArr =>
  some (buysArr, sellsArr)

/-- The loop of `UpdateCache` together with the values the shared cache takes on the
way: every order-book assignment (api.go 321-327) is one critical section and leaves one
new value of the cache. -/
def updateLoopStates {F : Type} [LinearOrder F] [Zero F] (std : StdLib F) (dn : DataNode)
    (startMs endMs vegaTime : Int) :
    CacheBuild F → List vega.Market → Option (List (Api F) × CacheBuild F)
  | st, [] => some ([], st)
  | st, market :: rest =>
    (updateMarket std dn startMs endMs vegaTime st market).bind fun st2 =>
    (updateLoopStates std dn startMs endMs vegaTime st2 rest).bind fun r =>
    some (if (assetIdOf market).length = 0 ∨ GetAsset dn (assetIdOf market) = none then r.1
      else st2.api :: r.1, r.2)

/-- The values of the shared cache at the points between the critical sections of one
`UpdateCache`: the value before the cycle, the value after each order-book assignment, and
the value after the final assignment of the market list (api.go 331-333). -/
def cycleStates {F : Type} [LinearOrder F] [Zero F] (std : StdLib F) (dn : DataNode)
    (now : Int) (a : Api F) : Option (List (Api F)) :=
  (updateLoopStates std dn (now - 86400000) now (GetVegaTime dn) { api := a, markets := [] }
    (GetMarkets dn)).map fun r => a :: r.1 ++ [{ r.2.api with markets := r.2.markets }]

/-- The ticker `UpdateCache` files a market under (api.go 291). -/
def tickerOf (market : vega.Market) : Str := ReplaceAll market.Code "/".toList []

/-! ## The specification's reading of the tag scan -/

/-- The prefix `base:`. -/
def basePrefix : Str := "base:".toList

/-- The prefix `quote:`. -/
def quotePrefix : Str := "quote:".toList

/-- The prefix `enactment:`. -/
def enactmentPrefix : Str := "enactment:".toList

/-- The prefix `settlement:`. -/
def settlementPrefix : Str := "settlement:".toList

/-- The text of a tag up to and including its first colon: the `key:` of a tag of the
form `key:value`; `none` for a tag without a colon. -/
def keyOf : Str → Option Str
  | [] => none
  | c :: cs => if c = ':' then some [':'] else (keyOf cs).map (fun k => c :: k)

/-- The hypothesis on tags as the specification words it: the tag has the form
`key:value` and its prefix `key:` occurs once, at the start of the tag. -/
def keyValueForm (tag : Str) : Bool :=
  match keyOf tag with
  | some p => !Contains (tag.drop p.length) p
  | none => false

/-- A tag on which the tag loop reads the two currencies by key: `base:` and `quote:`
occur only at the start of the tag. A tag that starts with `base:` contains `base:` once
(it may contain `quote:` later), a tag that starts with `quote:` contains `quote:` once
and no `base:`, and any other tag contains neither. -/
def currencyTag (tag : Str) : Bool :=
  if basePrefix.isPrefixOf tag then !Contains (tag.drop basePrefix.length) basePrefix
  else if quotePrefix.isPrefixOf tag then
    !Contains tag basePrefix && !Contains (tag.drop quotePrefix.length) quotePrefix
  else !Contains tag basePrefix && !Contains tag quotePrefix

/-- The value of the last tag whose key is `key`: the text after `key:` in the last tag
that starts with it, the empty string when there is none. -/
def lastValueOfKey (key : Str) (tags : List Str) : Str :=
  match (tags.filter (fun tag => (key ++ [':']).isPrefixOf tag)).getLast? with
  | some tag => tag.drop (key.length + 1)
  | none => []

/-- The substring of `tag` that follows the first occurrence of `p` (empty when `p` does
not occur). -/
def suffixAfter (p : Str) : Str → Str
  | [] => []
  | c :: cs => if p.isPrefixOf (c :: cs) then (c :: cs).drop p.length else suffixAfter p cs

/-- The field as the specification words it: the substring following `p` in the last tag
that contains `p` anywhere. -/
def suffixOfLastContaining (p : Str) (tags : List Str) : Str :=
  match (tags.filter (fun tag => Contains tag p)).getLast? with
  | some tag => suffixAfter p tag
  | none => []

/-- The field as the code assigns it: the last tag that contains `p` and none of the
prefixes tested before it, with every occurrence of `p` removed. -/
def assignedField (p : Str) (earlier : List Str) (tags : List Str) : Str :=
  match (tags.filter (fun tag => Contains tag p && earlier.all (fun q => !Contains tag q))).getLast? with
  | some tag => ReplaceAll tag p []
  | none => []

/-! ## A concrete instance of the library parameters and sample inputs -/

/-- Reads exactly `n` decimal digits from the front of a string. -/
def takeNumber : Nat → Str → Option (Nat × Str)
  | 0, s => some (0, s)
  | n + 1, s =>
    match takeNumber n s with
    | some (v, c :: rest) => (digitValue c).map (fun d => (10 * v + d, rest))
    | _ => none

/-- Days from 1 January 1970 to a date of the proleptic Gregorian calendar. -/
def daysFromCivil (y m d : Int) : Int :=
  let y := if m ≤ 2 then y - 1 else y
  let era := y / 400
  let yoe := y - era * 400
  let doy := (153 * (if 2 < m then m - 3 else m + 9) + 2) / 5 + d - 1
  let doe := yoe * 365 + yoe / 4 - yoe / 100 + doy
  era * 146097 + doe - 719468

/-- Number of days of a month. -/
def daysIn (y m : Nat) : Nat :=
  if m = 2 then (if y % 4 = 0 ∧ (y % 100 ≠ 0 ∨ y % 400 = 0) then 29 else 28)
  else if m = 4 ∨ m = 6 ∨ m = 9 ∨ m = 11 then 30 else 31

/-- The Unix seconds of a timestamp written `YYYY-MM-DDTHH:MM:SSZ`, the UTC form of
RFC 3339 with whole seconds; every other text is rejected. -/
def parseUtcSeconds (s : Str) : Option Int :=
  match takeNumber 4 s with
  | some (y, '-' :: s) =>
    match takeNumber 2 s with
    | some (mo, '-' :: s) =>
      match takeNumber 2 s with
      | some (d, 'T' :: s) =>
        match takeNumber 2 s with
        | some (h, ':' :: s) =>
          match takeNumber 2 s with
          | some (mi, ':' :: s) =>
            match takeNumber 2 s with
            | some (sec, ['Z']) =>
              if 1 ≤ mo ∧ mo ≤ 12 ∧ 1 ≤ d ∧ d ≤ daysIn y mo ∧ h < 24 ∧ mi < 60 ∧ sec < 60 then
                some (((daysFromCivil y mo d * 24 + h) * 60 + mi) * 60 + sec)
              else none
            | _ => none
          | _ => none
        | _ => none
      | _ => none
    | _ => none
  | _ => none

/-- A computable instance of the library parameters, for running the model on concrete
inputs: a `float64` is held as the integer number of units of `10^-16`, which orders the
quotients `Div` returns exactly as their values; timestamps are read in the UTC form. -/
def fixedPoint : StdLib Int where
  InexactFloat64 d := (d.rescale (-16)).value
  ParseFloat s := (((Decimal.NewFromString s).getD ⟨0, 0⟩).rescale (-16)).value
  mul a b := Int.tdiv (a * b) 10000000000000000
  ParseRFC3339 s := (parseUtcSeconds s).map (fun t => t * 1000)

/-- A perpetual market `BTC/USD` with one schedule trigger. -/
def perpMarket (every : Int) (initial : Option Int) : vega.Market where
  Id := "perp-1".toList
  Active := true
  DecimalPlaces := 0
  PositionDecimalPlaces := 0
  Code := "BTC/USD".toList
  Tags := ["base:BTC".toList, "quote:USD".toList, "other:x".toList]
  Product := vega.Product.perpetual "usd".toList (some [⟨initial, every⟩])

/-- A future market with the given tags and settlement asset. -/
def futureMarket (tags : List Str) (settlementAsset : Str) : vega.Market where
  Id := "future-1".toList
  Active := true
  DecimalPlaces := 0
  PositionDecimalPlaces := 0
  Code := "ETH/USD".toList
  Tags := tags
  Product := vega.Product.future settlementAsset

/-- A spot market. -/
def spotMarket : vega.Market where
  Id := "spot-1".toList
  Active := true
  DecimalPlaces := 0
  PositionDecimalPlaces := 0
  Code := "SOL/USD".toList
  Tags := ["quote:USD".toList, "quote:EUR".toList]
  Product := vega.Product.spot "usd".toList

/-- A market-data record with perpetual data. -/
def sampleData : vega.MarketData where
  LastTradedPrice := "100".toList
  BestBidPrice := "99".toList
  BestOfferPrice := "101".toList
  OpenInterest := 7
  PerpetualData := some ⟨"100000".toList, "0.0001".toList⟩

/-- The two candles of the specification's example. -/
def sampleCandles : List apipb.Candle :=
  [⟨"100".toList, "90".toList, 1, 1000⟩, ⟨"110".toList, "80".toList, 2, 500⟩]

/-- An asset with three decimal places. -/
def sampleAsset : vega.Asset := ⟨some 3⟩

/-- A candle with the given low and high. -/
def candleOf (low high : Str) : apipb.Candle := ⟨high, low, 1, 1⟩

/-- A candle with the given volume. -/
def volumeCandle (volume : Nat) : apipb.Candle := ⟨"1".toList, "1".toList, volume, 0⟩

/-- The record `NewMarket` returns for the sample perpetual market at upstream time
`3661` seconds, with floats in units of `10^-16`. -/
def sampleOutput : Market Int where
  TickerId := "BTCUSD".toList
  BaseCurrency := "BTC".toList
  TargetCurrency := "USD".toList
  LastPrice := 1000000000000000000
  BaseVolume := 30000000000000000
  TargetVolume := 15000000000000000000
  Bid := 990000000000000000
  Ask := 1010000000000000000
  High := 1100000000000000000
  Low := 800000000000000000
  ProductType := "Perpetual".toList
  OpenInterest := 70000000000000000
  OpenInterestUsd := 7000000000000000000
  IndexPrice := 1000000000000000000
  IndexName := "BTC".toList
  IndexCurrency := "USD".toList
  CreationTimestamp := -62135596800000
  StartTimestamp := -62135596800000
  ExpiryTimestamp := 7200000
  EndTimestamp := 7200000
  FundingRate := 1000000000000
  NextFundingRate := 1000000000000
  NextFundingRateTimestamp := 7200000
  ContractType := "Vanilla".toList
  ContractPrice := 1000000000000000000
  ContractPriceCurrency := "USD".toList

/-- A data node listing a perpetual, a future whose settlement asset is unknown, an
inactive market and a spot market; only the asset `usd` resolves. -/
def sampleNode : DataNode where
  ListMarkets := some [perpMarket 3600 (some 0), futureMarket [] "gone".toList,
    { spotMarket with Active := false, Id := "halted".toList }, spotMarket]
  GetLatestMarketData _ := some sampleData
  GetAsset id := if id = "usd".toList then some sampleAsset else none
  GetVegaTime := some 3661000000000
  ListCandleData _ _ _ := some sampleCandles
  GetLatestMarketDepth _ := some ([⟨"99".toList, 5⟩], [⟨"101".toList, 4⟩, ⟨"102".toList, 6⟩])

/-- The record `NewMarket` returns for the sample spot market. -/
def spotOutput : Market Int :=
  { sampleOutput with
    TickerId := "SOLUSD".toList
    BaseCurrency := []
    TargetCurrency := "EUR".toList
    ProductType := "Spot".toList
    IndexPrice := 0
    IndexName := []
    IndexCurrency := []
    CreationTimestamp := 0
    StartTimestamp := 0
    ExpiryTimestamp := 0
    EndTimestamp := 0
    FundingRate := 0
    NextFundingRate := 0
    NextFundingRateTimestamp := 0
    ContractPriceCurrency := "EUR".toList }

/-- The record `NewMarket` returns for the sample future market without tags. -/
def futureOutput : Market Int :=
  { spotOutput with
    TickerId := "ETHUSD".toList
    TargetCurrency := []
    ProductType := "Futures".toList
    CreationTimestamp := -62135596800000
    StartTimestamp := -62135596800000
    ExpiryTimestamp := -62135596800000
    EndTimestamp := -62135596800000
    ContractPriceCurrency := [] }

/-- Three candles with lows 5, 0 and 7. -/
def zeroLowCandles : List apipb.Candle :=
  [candleOf "5".toList "8".toList, candleOf "0".toList "8".toList, candleOf "7".toList "8".toList]

/-- The cache after one refresh cycle against the sample data node, starting empty. -/
def sampleCache : Api Int := (UpdateCache fixedPoint sampleNode 0 NewApi).getD NewApi

/-- A cache that holds an order book under the ticker `ETHUSD` from an earlier cycle. -/
def staleCache : Api Int where
  markets := [futureOutput]
  orderBooks := Function.update (fun _ => none) "ETHUSD".toList
    (some { TickerId := "ETHUSD".toList, Bids := some [[1, 2]], Asks := none })

/-- The cache after one refresh cycle against the sample data node, starting from
`staleCache`. -/
def refreshedCache : Api Int := (UpdateCache fixedPoint sampleNode 0 staleCache).getD NewApi

/-- The values of the cache during one refresh cycle against the sample data node,
starting empty. -/
def sampleStates : List (Api Int) := (cycleStates fixedPoint sampleNode 0 NewApi).getD []

/-- The sample data node with an empty market depth for every market. -/
def emptyBookNode : DataNode := { sampleNode with GetLatestMarketDepth := fun _ => some ([], []) }

/-- The sample data node with failing market-data fetches. -/
def noDataNode : DataNode := { sampleNode with GetLatestMarketData := fun _ => none }

/-- Library parameters that leave the final float conversion undone: the "float" is the
decimal handed to `InexactFloat64`. -/
def decimalLib : StdLib Decimal where
  InexactFloat64 d := d
  ParseFloat s := (Decimal.NewFromString s).getD ⟨0, 0⟩
  mul a b := ⟨a.value * b.value, a.exp + b.exp⟩
  ParseRFC3339 s := (parseUtcSeconds s).map (fun t => t * 1000)

/-! # Properties -/

/-! ## Machine integers -/

/-- A value inside the `int64` range is not changed by wrapping. -/
theorem wrap64_of_range {x : Int} (h1 : MinInt64 ≤ x) (h2 : x ≤ MaxInt64) : wrap64 x = x := by
  unfold wrap64; unfold MinInt64 at h1; unfold MaxInt64 at h2; omega

/-- A wrapped value lies in the `int64` range. -/
theorem wrap64_range (x : Int) : MinInt64 ≤ wrap64 x ∧ wrap64 x ≤ MaxInt64 := by
  unfold wrap64 MinInt64 MaxInt64; omega

/-- The whole seconds of an `int64` number of nanoseconds. -/
theorem tdiv_billion_range {x : Int} (h1 : MinInt64 ≤ x) (h2 : x ≤ MaxInt64) :
    -9223372036 ≤ Int.tdiv x 1000000000 ∧ Int.tdiv x 1000000000 ≤ 9223372036 := by
  unfold MinInt64 at h1; unfold MaxInt64 at h2
  have h := Int.tdiv_add_tmod x 1000000000
  rcases le_or_lt 0 x with hx | hx
  · have := Int.tmod_nonneg 1000000000 hx
    have := Int.tmod_lt_of_pos x (b := 1000000000) (by norm_num)
    omega
  · have h3 : 0 ≤ (-x).tmod 1000000000 := Int.tmod_nonneg 1000000000 (by omega)
    have h4 := Int.tmod_lt_of_pos (-x) (b := 1000000000) (by norm_num)
    have h5 := Int.tdiv_add_tmod (-x) 1000000000
    rw [Int.neg_tdiv] at h5
    omega

/-! ## Inversion of the fallible functions -/

/-- What a successful call of `NewMarket` returns, field by field. -/
theorem NewMarket_eq_some {F : Type} [LinearOrder F] [Zero F] {std : StdLib F}
    {market : vega.Market} {marketData : Option vega.MarketData} {candles : List apipb.Candle}
    {asset : Option vega.Asset} {vegaTime : Int} {m : Market F}
    (h : NewMarket std market marketData candles asset vegaTime = some m) :
    ∃ totals product md,
      candleLoop std market.DecimalPlaces ⟨0, 0, Decimal.Zero, Decimal.Zero⟩ candles = some totals ∧
      productFields std market marketData asset vegaTime (scanTags market.Tags) = some product ∧
      marketData = some md ∧
      m.TickerId = ReplaceAll market.Code "/".toList [] ∧
      m.BaseCurrency = (scanTags market.Tags).baseCurrency ∧
      m.TargetCurrency = (scanTags market.Tags).targetCurrency ∧
      m.High = totals.high ∧ m.Low = totals.low ∧
      fromBigNumber std totals.baseVolume.String (toUint64 market.PositionDecimalPlaces)
        = some m.BaseVolume ∧
      fromBigNumber std totals.targetVolume.String
        ((market.DecimalPlaces + toUint64 market.PositionDecimalPlaces) % 18446744073709551616)
        = some m.TargetVolume ∧
      m.ProductType = product.productType ∧
      m.IndexPrice = product.indexPrice ∧ m.IndexName = product.indexName ∧
      m.IndexCurrency = product.indexCurrency ∧
      m.StartTimestamp = product.startTimestamp ∧ m.CreationTimestamp = product.startTimestamp ∧
      m.EndTimestamp = product.endTimestamp ∧ m.ExpiryTimestamp = product.endTimestamp ∧
      m.FundingRate = product.fundingRate ∧ m.NextFundingRate = product.nextFundingRate ∧
      m.NextFundingRateTimestamp = product.nextFundingRateTimestamp := by
  simp only [NewMarket, Option.bind_eq_some] at h
  obtain ⟨totals, h1, product, h2, md, h3, lastPrice, -, openInterest, -, baseVolume, e3,
    targetVolume, e4, bid, -, ask, -, hm⟩ := h
  injection hm with hm
  subst hm
  exact ⟨totals, product, md, h1, h2, h3, rfl, rfl, rfl, rfl, rfl, e3, e4, rfl, rfl, rfl,
    rfl, rfl, rfl, rfl, rfl, rfl, rfl, rfl⟩

/-- What the product dispatch returns for a perpetual market. -/
theorem productFields_perpetual {F : Type} [Zero F] {std : StdLib F} {market : vega.Market}
    {marketData : Option vega.MarketData} {asset : Option vega.Asset} {vegaTime : Int}
    {tags : TagFields} {product : ProductFields F} {a : Str}
    {triggers : Option (List vega.InternalTimeTrigger)}
    (hp : market.Product = vega.Product.perpetual a triggers)
    (h : productFields std market marketData asset vegaTime tags = some product) :
    ∃ s q, getSecondsToFunding market vegaTime = some s ∧
      div64 (add64 vegaTime (mul64 s 1000000000)) 1000000000 = some q ∧
      product.nextFundingRateTimestamp = mul64 q 1000 ∧
      product.endTimestamp = mul64 q 1000 := by
  unfold productFields at h
  rw [hp] at h
  simp only [perpetualFields, Option.bind_eq_some] at h
  obtain ⟨md, -, perpData, -, a', -, decimals, -, indexPrice, -, s, hs, q, hq, hm⟩ := h
  injection hm with hm
  subst hm
  exact ⟨s, q, hs, hq, rfl, rfl⟩

/-- What one round of the candle loop computes. -/
theorem candleStep_eq_some {F : Type} [LinearOrder F] [Zero F] {std : StdLib F} {dp : Nat}
    {acc acc2 : CandleTotals F} {candle : apipb.Candle}
    (h : candleStep std dp acc candle = some acc2) :
    ∃ hi lo, fromBigNumber std candle.High dp = some hi ∧
      fromBigNumber std candle.Low dp = some lo ∧
      acc2.high = (if acc.high = 0 ∨ acc.high < hi then hi else acc.high) ∧
      acc2.low = (if acc.low = 0 ∨ lo < acc.low then lo else acc.low) ∧
      acc2.baseVolume = acc.baseVolume.Add (Decimal.NewFromInt (toInt64 candle.Volume)) ∧
      acc2.targetVolume = acc.targetVolume.Add (Decimal.NewFromInt (toInt64 candle.Notional)) := by
  simp only [candleStep, Option.bind_eq_some] at h
  obtain ⟨hi, h1, lo, h2, h3⟩ := h
  injection h3 with h3
  subst h3
  exact ⟨hi, lo, h1, h2, rfl, rfl, rfl, rfl⟩

/-- The candle loop on a non-empty list is one round followed by the loop on the rest. -/
theorem candleLoop_cons_eq_some {F : Type} [LinearOrder F] [Zero F] {std : StdLib F} {dp : Nat}
    {acc t : CandleTotals F} {candle : apipb.Candle} {rest : List apipb.Candle}
    (h : candleLoop std dp acc (candle :: rest) = some t) :
    ∃ acc2, candleStep std dp acc candle = some acc2 ∧ candleLoop std dp acc2 rest = some t := by
  simpa only [candleLoop, Option.bind_eq_some] using h

/-! ## The running high and low -/

/-- The running high over candles whose decoded highs are non-negative, from a non-negative
start: an upper bound of the start and of every decoded high, and one of them. -/
theorem candleLoop_high {F : Type} [LinearOrder F] [Zero F] (std : StdLib F) (dp : Nat) :
    ∀ (cs : List apipb.Candle) (acc t : CandleTotals F),
      candleLoop std dp acc cs = some t → 0 ≤ acc.high →
      (∀ c ∈ cs, ∀ x, fromBigNumber std c.High dp = some x → 0 ≤ x) →
      acc.high ≤ t.high ∧
      (∀ c ∈ cs, ∃ x, fromBigNumber std c.High dp = some x ∧ x ≤ t.high) ∧
      (t.high = acc.high ∨ ∃ c ∈ cs, fromBigNumber std c.High dp = some t.high) := by
  intro cs
  induction cs with
  | nil =>
    intro acc t h _ _
    simp only [candleLoop, Option.some.injEq] at h
    subst h
    exact ⟨le_refl _, by simp, Or.inl rfl⟩
  | cons c rest ih =>
    intro acc t h hacc hnn
    obtain ⟨acc2, hs, hl⟩ := candleLoop_cons_eq_some h
    obtain ⟨hi, lo, h1, -, h3, -⟩ := candleStep_eq_some hs
    have hhi : 0 ≤ hi := hnn c (List.mem_cons_self _ _) hi h1
    have hmax : acc2.high = max acc.high hi := by
      rw [h3]
      by_cases hlt : acc.high < hi
      · simp [hlt, max_eq_right hlt.le]
      · by_cases hz : acc.high = 0
        · have : hi = 0 := le_antisymm (by rw [← hz]; exact not_lt.mp hlt) hhi
          simp [hz, this]
        · simp [hlt, hz, max_eq_left (not_lt.mp hlt)]
    have hacc2 : 0 ≤ acc2.high := by rw [hmax]; exact le_max_of_le_left hacc
    obtain ⟨i1, i2, i3⟩ := ih acc2 t hl hacc2
      (fun c' hc' x hx => hnn c' (List.mem_cons_of_mem _ hc') x hx)
    refine ⟨le_trans (by rw [hmax]; exact le_max_left _ _) i1, ?_, ?_⟩
    · intro c' hc'
      rcases List.mem_cons.mp hc' with rfl | hc'
      · exact ⟨hi, h1, le_trans (by rw [hmax]; exact le_max_right _ _) i1⟩
      · exact i2 c' hc'
    · rcases i3 with i3 | ⟨c', hc', hx⟩
      · rcases le_total acc.high hi with hle | hle
        · right
          refine ⟨c, List.mem_cons_self _ _, ?_⟩
          rw [i3, hmax, max_eq_right hle]
          exact h1
        · left
          rw [i3, hmax, max_eq_left hle]
      · exact Or.inr ⟨c', List.mem_cons_of_mem _ hc', hx⟩

/-- The running low over candles whose decoded lows are non-zero, from a non-zero start: a
lower bound of the start and of every decoded low, and one of them. -/
theorem candleLoop_low {F : Type} [LinearOrder F] [Zero F] (std : StdLib F) (dp : Nat) :
    ∀ (cs : List apipb.Candle) (acc t : CandleTotals F),
      candleLoop std dp acc cs = some t → acc.low ≠ 0 →
      (∀ c ∈ cs, ∀ x, fromBigNumber std c.Low dp = some x → x ≠ 0) →
      t.low ≤ acc.low ∧
      (∀ c ∈ cs, ∃ x, fromBigNumber std c.Low dp = some x ∧ t.low ≤ x) ∧
      (t.low = acc.low ∨ ∃ c ∈ cs, fromBigNumber std c.Low dp = some t.low) := by
  intro cs
  induction cs with
  | nil =>
    intro acc t h _ _
    simp only [candleLoop, Option.some.injEq] at h
    subst h
    exact ⟨le_refl _, by simp, Or.inl rfl⟩
  | cons c rest ih =>
    intro acc t h hacc hnz
    obtain ⟨acc2, hs, hl⟩ := candleLoop_cons_eq_some h
    obtain ⟨hi, lo, -, h2, -, h4, -⟩ := candleStep_eq_some hs
    have hlo : lo ≠ 0 := hnz c (List.mem_cons_self _ _) lo h2
    have hmin : acc2.low = min acc.low lo := by
      rw [h4]
      by_cases hlt : lo < acc.low
      · simp [hlt, min_eq_right hlt.le]
      · simp [hlt, hacc, min_eq_left (not_lt.mp hlt)]
    have hacc2 : acc2.low ≠ 0 := by
      rw [hmin]
      rcases min_choice acc.low lo with e | e <;> rw [e] <;> assumption
    obtain ⟨i1, i2, i3⟩ := ih acc2 t hl hacc2
      (fun c' hc' x hx => hnz c' (List.mem_cons_of_mem _ hc') x hx)
    refine ⟨le_trans i1 (by rw [hmin]; exact min_le_left _ _), ?_, ?_⟩
    · intro c' hc'
      rcases List.mem_cons.mp hc' with rfl | hc'
      · exact ⟨lo, h2, le_trans i1 (by rw [hmin]; exact min_le_right _ _)⟩
      · exact i2 c' hc'
    · rcases i3 with i3 | ⟨c', hc', hx⟩
      · rcases le_total acc.low lo with hle | hle
        · left
          rw [i3, hmin, min_eq_left hle]
        · right
          refine ⟨c, List.mem_cons_self _ _, ?_⟩
          rw [i3, hmin, min_eq_right hle]
          exact h2
      · exact Or.inr ⟨c', List.mem_cons_of_mem _ hc', hx⟩

/-- The high after the whole loop, from the initial zero. -/
theorem candleLoop_high_init {F : Type} [LinearOrder F] [Zero F] (std : StdLib F) (dp : Nat)
    (cs : List apipb.Candle) (t : CandleTotals F) (b tv : Decimal)
    (h : candleLoop std dp ⟨0, 0, b, tv⟩ cs = some t)
    (hnn : ∀ c ∈ cs, ∀ x, fromBigNumber std c.High dp = some x → 0 ≤ x) :
    (cs = [] → t.high = 0) ∧
    (cs ≠ [] → ∃ c ∈ cs, fromBigNumber std c.High dp = some t.high) ∧
    (∀ c ∈ cs, ∃ x, fromBigNumber std c.High dp = some x ∧ x ≤ t.high) := by
  cases cs with
  | nil =>
    simp only [candleLoop, Option.some.injEq] at h
    subst h
    simp
  | cons c rest =>
    obtain ⟨acc2, hs, hl⟩ := candleLoop_cons_eq_some h
    obtain ⟨hi, lo, h1, -, h3, -⟩ := candleStep_eq_some hs
    have hseed : acc2.high = hi := by rw [h3]; simp
    have hhi : 0 ≤ hi := hnn c (List.mem_cons_self _ _) hi h1
    obtain ⟨i1, i2, i3⟩ := candleLoop_high std dp rest acc2 t hl (by rw [hseed]; exact hhi)
      (fun c' hc' x hx => hnn c' (List.mem_cons_of_mem _ hc') x hx)
    refine ⟨by simp, fun _ => ?_, ?_⟩
    · rcases i3 with i3 | ⟨c', hc', hx⟩
      · exact ⟨c, List.mem_cons_self _ _, by rw [i3, hseed]; exact h1⟩
      · exact ⟨c', List.mem_cons_of_mem _ hc', hx⟩
    · intro c' hc'
      rcases List.mem_cons.mp hc' with rfl | hc'
      · exact ⟨hi, h1, by rw [← hseed]; exact i1⟩
      · exact i2 c' hc'

/-- The low after the whole loop, from the initial zero. -/
theorem candleLoop_low_init {F : Type} [LinearOrder F] [Zero F] (std : StdLib F) (dp : Nat)
    (cs : List apipb.Candle) (t : CandleTotals F) (b tv : Decimal)
    (h : candleLoop std dp ⟨0, 0, b, tv⟩ cs = some t)
    (hnz : ∀ c ∈ cs, ∀ x, fromBigNumber std c.Low dp = some x → x ≠ 0) :
    (cs = [] → t.low = 0) ∧
    (cs ≠ [] → ∃ c ∈ cs, fromBigNumber std c.Low dp = some t.low) ∧
    (∀ c ∈ cs, ∃ x, fromBigNumber std c.Low dp = some x ∧ t.low ≤ x) := by
  cases cs with
  | nil =>
    simp only [candleLoop, Option.some.injEq] at h
    subst h
    simp
  | cons c rest =>
    obtain ⟨acc2, hs, hl⟩ := candleLoop_cons_eq_some h
    obtain ⟨hi, lo, -, h2, -, h4, -⟩ := candleStep_eq_some hs
    have hseed : acc2.low = lo := by rw [h4]; simp
    have hlo : lo ≠ 0 := hnz c (List.mem_cons_self _ _) lo h2
    obtain ⟨i1, i2, i3⟩ := candleLoop_low std dp rest acc2 t hl (by rw [hseed]; exact hlo)
      (fun c' hc' x hx => hnz c' (List.mem_cons_of_mem _ hc') x hx)
    refine ⟨by simp, fun _ => ?_, ?_⟩
    · rcases i3 with i3 | ⟨c', hc', hx⟩
      · exact ⟨c, List.mem_cons_self _ _, by rw [i3, hseed]; exact h2⟩
      · exact ⟨c', List.mem_cons_of_mem _ hc', hx⟩
    · intro c' hc'
      rcases List.mem_cons.mp hc' with rfl | hc'
      · exact ⟨lo, h2, by rw [← hseed]; exact i1⟩
      · exact i2 c' hc'

/-! ## Volumes -/

/-- A `uint64` below `2^63` converts to the same `int64`. -/
theorem toInt64_of_lt {v : Nat} (h : v < 9223372036854775808) : toInt64 v = v := by
  unfold toInt64 wrap64
  simp only [Int.ofNat_eq_coe]
  omega

/-- Adding an integer to an integer-valued decimal. -/
theorem Decimal.Add_NewFromInt (s v : Int) :
    Decimal.Add ⟨s, 0⟩ (Decimal.NewFromInt v) = ⟨s + v, 0⟩ := by
  simp [Decimal.Add, Decimal.NewFromInt, Decimal.rescale]

/-- Adding an integer to `decimal.Zero`. -/
theorem Decimal.Zero_Add_NewFromInt (v : Int) :
    Decimal.Add Decimal.Zero (Decimal.NewFromInt v) = ⟨v, 0⟩ := by
  simp [Decimal.Add, Decimal.Zero, Decimal.NewFromInt, Decimal.rescale]

/-- The text of an integer-valued decimal. -/
theorem Decimal.String_int (s : Int) : Decimal.String ⟨s, 0⟩ = FormatInt s := by
  simp [Decimal.String, Decimal.rescale]

/-- The text of `decimal.Zero`. -/
theorem Decimal.String_Zero : Decimal.String Decimal.Zero = FormatInt 0 := by
  simp [Decimal.String, Decimal.Zero, Decimal.rescale]

/-- The sum of converted values that are all below `2^63` is the exact sum. -/
theorem sum_toInt64 (f : apipb.Candle → Nat) :
    ∀ cs : List apipb.Candle, (∀ c ∈ cs, f c < 9223372036854775808) →
      (cs.map fun c => toInt64 (f c)).sum = ((cs.map f).sum : Nat) := by
  intro cs
  induction cs with
  | nil => intro _; rfl
  | cons c rest ih =>
    intro hv
    rw [List.map_cons, List.sum_cons, List.map_cons, List.sum_cons, Nat.cast_add,
      ih (fun c' hc' => hv c' (List.mem_cons_of_mem _ hc')),
      toInt64_of_lt (hv c (List.mem_cons_self _ _))]

/-- The running volumes from integer-valued totals: the totals plus the converted volumes
and notionals, added as unbounded integers. -/
theorem candleLoop_volume {F : Type} [LinearOrder F] [Zero F] (std : StdLib F) (dp : Nat) :
    ∀ (cs : List apipb.Candle) (hi lo : F) (b tv : Int) (t : CandleTotals F),
      candleLoop std dp ⟨hi, lo, ⟨b, 0⟩, ⟨tv, 0⟩⟩ cs = some t →
      t.baseVolume = ⟨b + (cs.map fun c => toInt64 c.Volume).sum, 0⟩ ∧
      t.targetVolume = ⟨tv + (cs.map fun c => toInt64 c.Notional).sum, 0⟩ := by
  intro cs
  induction cs with
  | nil =>
    intro hi lo b tv t h
    simp only [candleLoop, Option.some.injEq] at h
    subst h
    constructor <;> simp only [List.map_nil, List.sum_nil, add_zero]
  | cons c rest ih =>
    intro hi lo b tv t h
    obtain ⟨acc2, hs, hl⟩ := candleLoop_cons_eq_some h
    obtain ⟨x, y, -, -, -, -, h5, h6⟩ := candleStep_eq_some hs
    rw [Decimal.Add_NewFromInt] at h5 h6
    obtain ⟨hi2, lo2, b2, tv2⟩ := acc2
    simp only at h5 h6
    subst h5 h6
    obtain ⟨i1, i2⟩ := ih hi2 lo2 _ _ t hl
    rw [i1, i2]
    constructor
    · rw [List.map_cons, List.sum_cons, add_assoc]
    · rw [List.map_cons, List.sum_cons, add_assoc]

/-- The texts of the two volume totals after the whole candle loop. -/
theorem candleLoop_volume_init {F : Type} [LinearOrder F] [Zero F] (std : StdLib F) (dp : Nat)
    (cs : List apipb.Candle) (t : CandleTotals F)
    (h : candleLoop std dp ⟨0, 0, Decimal.Zero, Decimal.Zero⟩ cs = some t) :
    t.baseVolume.String = FormatInt (cs.map fun c => toInt64 c.Volume).sum ∧
    t.targetVolume.String = FormatInt (cs.map fun c => toInt64 c.Notional).sum := by
  cases cs with
  | nil =>
    simp only [candleLoop, Option.some.injEq] at h
    subst h
    exact ⟨Decimal.String_Zero, Decimal.String_Zero⟩
  | cons c rest =>
    obtain ⟨acc2, hs, hl⟩ := candleLoop_cons_eq_some h
    obtain ⟨x, y, -, -, -, -, h5, h6⟩ := candleStep_eq_some hs
    rw [Decimal.Zero_Add_NewFromInt] at h5 h6
    obtain ⟨hi2, lo2, b2, tv2⟩ := acc2
    simp only at h5 h6
    subst h5 h6
    obtain ⟨i1, i2⟩ := candleLoop_volume std dp rest hi2 lo2 _ _ t hl
    rw [i1, i2, Decimal.String_int, Decimal.String_int]
    constructor
    · rw [List.map_cons, List.sum_cons]
    · rw [List.map_cons, List.sum_cons]

/-- The volumes `NewMarket` returns: the decoding of the sum of the candle volumes after
their conversion to `int64`, and likewise for the notionals. When every volume is below
`2^63` the conversion changes nothing and the sum is the exact one. -/
theorem NewMarket_volumes {F : Type} [LinearOrder F] [Zero F] (std : StdLib F)
    (market : vega.Market) (marketData : Option vega.MarketData) (candles : List apipb.Candle)
    (asset : Option vega.Asset) (vegaTime : Int) (m : Market F)
    (h : NewMarket std market marketData candles asset vegaTime = some m) :
    fromBigNumber std (FormatInt (candles.map fun c => toInt64 c.Volume).sum)
        (toUint64 market.PositionDecimalPlaces) = some m.BaseVolume ∧
    fromBigNumber std (FormatInt (candles.map fun c => toInt64 c.Notional).sum)
        ((market.DecimalPlaces + toUint64 market.PositionDecimalPlaces) % 18446744073709551616)
        = some m.TargetVolume ∧
    ((∀ c ∈ candles, c.Volume < 9223372036854775808) →
      (candles.map fun c => toInt64 c.Volume).sum = ((candles.map fun c => c.Volume).sum : Nat)) ∧
    ((∀ c ∈ candles, c.Notional < 9223372036854775808) →
      (candles.map fun c => toInt64 c.Notional).sum
        = ((candles.map fun c => c.Notional).sum : Nat)) := by
  obtain ⟨totals, product, md, h1, -, -, -, -, -, -, -, e3, e4, -⟩ := NewMarket_eq_some h
  obtain ⟨s1, s2⟩ := candleLoop_volume_init std _ candles totals h1
  rw [s1] at e3
  rw [s2] at e4
  exact ⟨e3, e4, sum_toInt64 (fun c => c.Volume) candles, sum_toInt64 (fun c => c.Notional) candles⟩

/-! ## Seconds to funding -/

/-- The value `getSecondsToFunding` returns when no subtraction overflows. -/
theorem getSecondsToFunding_value (market : vega.Market) (asset : Str)
    (timeTrigger : vega.InternalTimeTrigger) (rest : List vega.InternalTimeTrigger) (t : Int)
    (hp : market.Product = vega.Product.perpetual asset (some (timeTrigger :: rest)))
    (hevery : 0 < timeTrigger.Every) (hmax : timeTrigger.Every ≤ MaxInt64)
    (ht1 : MinInt64 ≤ t) (ht2 : t ≤ MaxInt64)
    (hge : timeTrigger.GetInitial ≤ Int.tdiv t 1000000000)
    (hsub : Int.tdiv t 1000000000 - timeTrigger.GetInitial ≤ MaxInt64) :
    getSecondsToFunding market t =
      some (timeTrigger.Every -
        (Int.tdiv t 1000000000 - timeTrigger.GetInitial) % timeTrigger.Every) := by
  have hr := tdiv_billion_range ht1 ht2
  have hd : 0 ≤ Int.tdiv t 1000000000 - timeTrigger.GetInitial := by omega
  have hw1 : wrap64 (Int.tdiv t 1000000000) = Int.tdiv t 1000000000 :=
    wrap64_of_range (by unfold MinInt64; omega) (by unfold MaxInt64; omega)
  have hw2 : wrap64 (Int.tdiv t 1000000000 - timeTrigger.GetInitial)
      = Int.tdiv t 1000000000 - timeTrigger.GetInitial :=
    wrap64_of_range (by unfold MinInt64; omega) hsub
  have hm : Int.tmod (Int.tdiv t 1000000000 - timeTrigger.GetInitial) timeTrigger.Every
      = (Int.tdiv t 1000000000 - timeTrigger.GetInitial) % timeTrigger.Every :=
    Int.tmod_eq_emod hd hevery.le
  have hm1 := Int.emod_nonneg (Int.tdiv t 1000000000 - timeTrigger.GetInitial) hevery.ne'
  have hm2 := Int.emod_lt_of_pos (Int.tdiv t 1000000000 - timeTrigger.GetInitial) hevery
  have hw3 : wrap64 ((Int.tdiv t 1000000000 - timeTrigger.GetInitial) % timeTrigger.Every)
      = (Int.tdiv t 1000000000 - timeTrigger.GetInitial) % timeTrigger.Every :=
    wrap64_of_range (by unfold MinInt64; omega) (by omega)
  have hw4 : wrap64 (timeTrigger.Every -
      (Int.tdiv t 1000000000 - timeTrigger.GetInitial) % timeTrigger.Every)
      = timeTrigger.Every -
      (Int.tdiv t 1000000000 - timeTrigger.GetInitial) % timeTrigger.Every :=
    wrap64_of_range (by unfold MinInt64; omega) (by omega)
  unfold getSecondsToFunding
  rw [hp]
  simp only [div64, mod64, sub64]
  rw [if_neg (by norm_num), Option.some_bind, hw1, hw2, if_neg hevery.ne', Option.some_bind,
    hm, hw3, hw4]

/-- C1 (as amended): for a perpetual market whose first schedule trigger has interval
`every > 0` and phase `initial`, and an upstream time `t` in nanoseconds (an `int64`) whose
whole seconds `t div 10^9` (Go's truncating division) are at least `initial` and exceed it
by no more than the largest `int64`, `getSecondsToFunding` returns
`every - ((t div 10^9 - initial) mod every)`. -/
theorem getSecondsToFunding_eq (market : vega.Market) (asset : Str)
    (timeTrigger : vega.InternalTimeTrigger) (rest : List vega.InternalTimeTrigger) (t : Int)
    (hp : market.Product = vega.Product.perpetual asset (some (timeTrigger :: rest)))
    (hevery : 0 < timeTrigger.Every) (hmax : timeTrigger.Every ≤ MaxInt64)
    (ht1 : MinInt64 ≤ t) (ht2 : t ≤ MaxInt64)
    (hge : timeTrigger.GetInitial ≤ Int.tdiv t 1000000000)
    (hsub : Int.tdiv t 1000000000 - timeTrigger.GetInitial ≤ MaxInt64) :
    getSecondsToFunding market t =
      some (timeTrigger.Every -
        (Int.tdiv t 1000000000 - timeTrigger.GetInitial) % timeTrigger.Every) :=
  getSecondsToFunding_value market asset timeTrigger rest t hp hevery hmax ht1 ht2 hge hsub

/-- C1, the specification's example: every 3600, initial 0 and upstream time 3661 s give
3539. -/
theorem getSecondsToFunding_eq_witness :
    getSecondsToFunding (perpMarket 3600 (some 0)) 3661000000000 = some 3539 :=
  getSecondsToFunding_eq (perpMarket 3600 (some 0)) "usd".toList ⟨some 0, 3600⟩ [] 3661000000000
    rfl (by decide) (by decide) (by decide) (by decide) (by decide) (by decide)

/-- C1 as stated fails when `t div 10^9 - initial` leaves `int64`: with every 3, initial
`-2^63` and `t = 0` the code returns 5, the formula gives 1. -/
theorem getSecondsToFunding_overflow :
    (0 : Int) < 3 ∧ MinInt64 ≤ Int.tdiv 0 1000000000 ∧
      getSecondsToFunding (perpMarket 3 (some MinInt64)) 0 = some 5 ∧
      (3 : Int) - (Int.tdiv 0 1000000000 - MinInt64) % 3 = 1 := by
  refine ⟨by decide, by decide, rfl, by decide⟩

/-! ## The next funding timestamp -/

/-- The value of the perpetual branch's timestamp expression when nothing overflows and
the sum is not negative. -/
theorem nextFunding_value {t s q : Int}
    (hq : div64 (add64 t (mul64 s 1000000000)) 1000000000 = some q) :
    mul64 q 1000 = q * 1000 ∧ q = Int.tdiv (add64 t (mul64 s 1000000000)) 1000000000 := by
  have hq2 : q = wrap64 (Int.tdiv (add64 t (mul64 s 1000000000)) 1000000000) := by
    unfold div64 at hq
    rw [if_neg (by norm_num)] at hq
    injection hq with hq
    exact hq.symm
  have hx := wrap64_range (t + mul64 s 1000000000)
  have hr := tdiv_billion_range hx.1 hx.2
  have hq3 : q = Int.tdiv (add64 t (mul64 s 1000000000)) 1000000000 := by
    rw [hq2]
    exact wrap64_of_range (by unfold MinInt64; unfold add64; omega)
      (by unfold MaxInt64; unfold add64; omega)
  refine ⟨?_, hq3⟩
  unfold mul64
  apply wrap64_of_range
  · unfold MinInt64; rw [hq3]; unfold add64; omega
  · unfold MaxInt64; rw [hq3]; unfold add64; omega

/-- C2 (as amended): whenever `NewMarket` returns a record for a perpetual market at
upstream time `t`, `getSecondsToFunding` returned some `s`, `NextFundingRateTimestamp` is a
multiple of 1000, and it equals `floor((t + s*10^9) / 10^9) * 1000` when `s*10^9` and
`t + s*10^9` stay inside `int64` and the sum is not negative. -/
theorem NewMarket_nextFundingTimestamp {F : Type} [LinearOrder F] [Zero F] (std : StdLib F)
    (market : vega.Market) (marketData : Option vega.MarketData) (candles : List apipb.Candle)
    (asset : Option vega.Asset) (t : Int) (m : Market F) (a : Str)
    (triggers : Option (List vega.InternalTimeTrigger))
    (hp : market.Product = vega.Product.perpetual a triggers)
    (h : NewMarket std market marketData candles asset t = some m) :
    ∃ s, getSecondsToFunding market t = some s ∧
      1000 ∣ m.NextFundingRateTimestamp ∧
      (MinInt64 ≤ s * 1000000000 → s * 1000000000 ≤ MaxInt64 →
        0 ≤ t + s * 1000000000 → t + s * 1000000000 ≤ MaxInt64 →
        m.NextFundingRateTimestamp = (t + s * 1000000000) / 1000000000 * 1000) := by
  obtain ⟨totals, product, md, -, h2, -, -, -, -, -, -, -, -, -, -, -, -, -, -, -, -, -, -, hn⟩ :=
    NewMarket_eq_some h
  obtain ⟨s, q, hs, hq, hq', -⟩ := productFields_perpetual hp h2
  obtain ⟨hq4, hq3⟩ := nextFunding_value hq
  refine ⟨s, hs, ?_, ?_⟩
  · rw [hn, hq', hq4]
    exact Dvd.intro_left q rfl
  · intro h1 h2 h3 h4
    rw [hn, hq', hq4, hq3]
    have e1 : mul64 s 1000000000 = s * 1000000000 := wrap64_of_range h1 h2
    have e2 : add64 t (s * 1000000000) = t + s * 1000000000 :=
      wrap64_of_range (by unfold MinInt64; omega) h4
    rw [e1, e2, Int.tdiv_eq_ediv h3 (by norm_num)]

/-- C2 on the sample perpetual market: every 3600, initial 0, upstream time 3661 s give
the timestamp 7200000. -/
theorem NewMarket_nextFundingTimestamp_witness :
    ∃ s, getSecondsToFunding (perpMarket 3600 (some 0)) 3661000000000 = some s ∧
      1000 ∣ sampleOutput.NextFundingRateTimestamp ∧
      (MinInt64 ≤ s * 1000000000 → s * 1000000000 ≤ MaxInt64 →
        0 ≤ 3661000000000 + s * 1000000000 → 3661000000000 + s * 1000000000 ≤ MaxInt64 →
        sampleOutput.NextFundingRateTimestamp
          = (3661000000000 + s * 1000000000) / 1000000000 * 1000) :=
  NewMarket_nextFundingTimestamp fixedPoint (perpMarket 3600 (some 0)) (some sampleData)
    sampleCandles (some sampleAsset) 3661000000000 sampleOutput
    "usd".toList (some [⟨some 0, 3600⟩]) rfl rfl

/-- C2 as stated fails for a negative sum: at `t = -5.5 s` with every 1 and initial 0 the
code returns `-4000` (Go's `/` truncates toward zero), the floor formula gives `-5000`. -/
theorem NewMarket_nextFundingTimestamp_negative :
    getSecondsToFunding (perpMarket 1 (some 0)) (-5500000000) = some 1 ∧
      (NewMarket fixedPoint (perpMarket 1 (some 0)) (some sampleData) [] (some sampleAsset)
        (-5500000000)).map (fun m => m.NextFundingRateTimestamp) = some (-4000) ∧
      ((-5500000000 : Int) + 1 * 1000000000) / 1000000000 * 1000 = -5000 := by
  refine ⟨rfl, rfl, by decide⟩

/-! ## High and low -/

/-- C4: whenever `NewMarket` returns a record and the decoded highs of the candles are
non-negative, `High` is 0 for the empty candle sequence and otherwise the maximum of the
per-candle highs decoded with the market's decimal places: the decoded high of one of the
candles, and at least the decoded high of every candle. -/
theorem NewMarket_High {F : Type} [LinearOrder F] [Zero F] (std : StdLib F)
    (market : vega.Market) (marketData : Option vega.MarketData) (candles : List apipb.Candle)
    (asset : Option vega.Asset) (vegaTime : Int) (m : Market F)
    (h : NewMarket std market marketData candles asset vegaTime = some m)
    (hnn : ∀ c ∈ candles, ∀ x, fromBigNumber std c.High market.DecimalPlaces = some x → 0 ≤ x) :
    (candles = [] → m.High = 0) ∧
    (candles ≠ [] → ∃ c ∈ candles, fromBigNumber std c.High market.DecimalPlaces = some m.High) ∧
    (∀ c ∈ candles, ∃ x, fromBigNumber std c.High market.DecimalPlaces = some x ∧ x ≤ m.High) := by
  obtain ⟨totals, product, md, h1, -, -, -, -, -, hh, -⟩ := NewMarket_eq_some h
  rw [hh]
  exact candleLoop_high_init std _ candles totals _ _ h1 hnn

/-- The decoded highs of the sample candles. -/
theorem sampleCandles_high :
    ∀ c ∈ sampleCandles, ∀ x, fromBigNumber fixedPoint c.High 0 = some x → 0 ≤ x := by
  intro c hc x hx
  simp only [sampleCandles, List.mem_cons, List.mem_singleton, List.not_mem_nil, or_false] at hc
  rcases hc with rfl | rfl
  · have e : fromBigNumber fixedPoint "100".toList 0 = some 1000000000000000000 := rfl
    rw [e] at hx
    injection hx with hx
    rw [← hx]
    decide
  · have e : fromBigNumber fixedPoint "110".toList 0 = some 1100000000000000000 := rfl
    rw [e] at hx
    injection hx with hx
    rw [← hx]
    decide

/-- C4 on the specification's example: highs 100 and 110 at decimal places 0 give the
high 110 (in units of `10^-16`). -/
theorem NewMarket_High_witness :
    sampleOutput.High = 1100000000000000000 ∧
    (sampleCandles = [] → sampleOutput.High = 0) ∧
    (sampleCandles ≠ [] →
      ∃ c ∈ sampleCandles, fromBigNumber fixedPoint c.High 0 = some sampleOutput.High) ∧
    (∀ c ∈ sampleCandles, ∃ x, fromBigNumber fixedPoint c.High 0 = some x ∧
      x ≤ sampleOutput.High) :=
  ⟨rfl, NewMarket_High fixedPoint (perpMarket 3600 (some 0)) (some sampleData) sampleCandles
    (some sampleAsset) 3661000000000 sampleOutput rfl sampleCandles_high⟩

/-- C3 (as amended): whenever `NewMarket` returns a record and the decoded lows of the
candles are all different from zero (in particular, all positive), `Low` is 0 for the
empty candle sequence and otherwise the minimum of the per-candle lows decoded with the
market's decimal places: the decoded low of one of the candles, and at most the decoded
low of every candle. -/
theorem NewMarket_Low {F : Type} [LinearOrder F] [Zero F] (std : StdLib F)
    (market : vega.Market) (marketData : Option vega.MarketData) (candles : List apipb.Candle)
    (asset : Option vega.Asset) (vegaTime : Int) (m : Market F)
    (h : NewMarket std market marketData candles asset vegaTime = some m)
    (hnz : ∀ c ∈ candles, ∀ x, fromBigNumber std c.Low market.DecimalPlaces = some x → x ≠ 0) :
    (candles = [] → m.Low = 0) ∧
    (candles ≠ [] → ∃ c ∈ candles, fromBigNumber std c.Low market.DecimalPlaces = some m.Low) ∧
    (∀ c ∈ candles, ∃ x, fromBigNumber std c.Low market.DecimalPlaces = some x ∧ m.Low ≤ x) := by
  obtain ⟨totals, product, md, h1, -, -, -, -, -, -, hl, -⟩ := NewMarket_eq_some h
  rw [hl]
  exact candleLoop_low_init std _ candles totals _ _ h1 hnz

/-- The decoded lows of the sample candles. -/
theorem sampleCandles_low :
    ∀ c ∈ sampleCandles, ∀ x, fromBigNumber fixedPoint c.Low 0 = some x → x ≠ 0 := by
  intro c hc x hx
  simp only [sampleCandles, List.mem_cons, List.mem_singleton, List.not_mem_nil, or_false] at hc
  rcases hc with rfl | rfl
  · have e : fromBigNumber fixedPoint "90".toList 0 = some 900000000000000000 := rfl
    rw [e] at hx
    injection hx with hx
    rw [← hx]
    decide
  · have e : fromBigNumber fixedPoint "80".toList 0 = some 800000000000000000 := rfl
    rw [e] at hx
    injection hx with hx
    rw [← hx]
    decide

/-- C3 on the specification's example: lows 90 and 80 at decimal places 0 give the low
80 (in units of `10^-16`). -/
theorem NewMarket_Low_witness :
    sampleOutput.Low = 800000000000000000 ∧
    (sampleCandles = [] → sampleOutput.Low = 0) ∧
    (sampleCandles ≠ [] →
      ∃ c ∈ sampleCandles, fromBigNumber fixedPoint c.Low 0 = some sampleOutput.Low) ∧
    (∀ c ∈ sampleCandles, ∃ x, fromBigNumber fixedPoint c.Low 0 = some x ∧
      sampleOutput.Low ≤ x) :=
  ⟨rfl, NewMarket_Low fixedPoint (perpMarket 3600 (some 0)) (some sampleData) sampleCandles
    (some sampleAsset) 3661000000000 sampleOutput rfl sampleCandles_low⟩

/-- C3 as stated fails when a decoded low is zero: the lows 5, 0, 7 are non-negative and
their minimum is 0, but the zero restarts the running low and `NewMarket` returns 7. -/
theorem NewMarket_Low_zero_restarts :
    zeroLowCandles.map (fun c => fromBigNumber fixedPoint c.Low 0)
        = [some 50000000000000000, some 0, some 70000000000000000] ∧
      (NewMarket fixedPoint (perpMarket 3600 (some 0)) (some sampleData) zeroLowCandles
        (some sampleAsset) 3661000000000).map (fun m => m.Low) = some 70000000000000000 := by
  exact ⟨rfl, rfl⟩

/-! ## Volumes -/

/-- C5 at a failing input: one candle of volume `2^63`. The exact sum decodes to
`2^63` (in units of `10^-16`), while `NewMarket` converts the volume to `int64` first and
returns the decoding of `-2^63`. -/
theorem NewMarket_volume_wraps :
    fromBigNumber fixedPoint (FormatUint 9223372036854775808) 0
        = some 92233720368547758080000000000000000 ∧
      toInt64 9223372036854775808 = -9223372036854775808 ∧
      (NewMarket fixedPoint (perpMarket 3600 (some 0)) (some sampleData)
        [volumeCandle 9223372036854775808] (some sampleAsset) 3661000000000).map
          (fun m => m.BaseVolume) = some (-92233720368547758080000000000000000) := by
  exact ⟨rfl, rfl, rfl⟩

/-! ## Product-dependent fields -/

/-- The product dispatch for a future market. -/
theorem productFields_future_eq {F : Type} [Zero F] {std : StdLib F} {market : vega.Market}
    {marketData : Option vega.MarketData} {asset : Option vega.Asset} {vegaTime : Int}
    {tags : TagFields} {product : ProductFields F} {a : Str}
    (hp : market.Product = vega.Product.future a)
    (h : productFields std market marketData asset vegaTime tags = some product) :
    product = { (noProduct : ProductFields F) with
      productType := "Futures".toList
      startTimestamp := parseUnixMilli std tags.enactmentTimestamp
      endTimestamp := parseUnixMilli std tags.settlementTimestamp } := by
  unfold productFields at h
  rw [hp] at h
  injection h with h
  exact h.symm

/-- The product dispatch for a spot market. -/
theorem productFields_spot_eq {F : Type} [Zero F] {std : StdLib F} {market : vega.Market}
    {marketData : Option vega.MarketData} {asset : Option vega.Asset} {vegaTime : Int}
    {tags : TagFields} {product : ProductFields F} {q : Str}
    (hp : market.Product = vega.Product.spot q)
    (h : productFields std market marketData asset vegaTime tags = some product) :
    product = { (noProduct : ProductFields F) with productType := "Spot".toList } := by
  unfold productFields at h
  rw [hp] at h
  injection h with h
  exact h.symm

/-- The mirrored fields of the perpetual branch. -/
theorem productFields_perpetual_mirrors {F : Type} [Zero F] {std : StdLib F}
    {market : vega.Market} {marketData : Option vega.MarketData} {asset : Option vega.Asset}
    {vegaTime : Int} {tags : TagFields} {product : ProductFields F} {a : Str}
    {triggers : Option (List vega.InternalTimeTrigger)}
    (hp : market.Product = vega.Product.perpetual a triggers)
    (h : productFields std market marketData asset vegaTime tags = some product) :
    product.productType = "Perpetual".toList ∧
      product.nextFundingRate = product.fundingRate ∧
      product.indexName = tags.baseCurrency ∧ product.indexCurrency = tags.targetCurrency ∧
      product.endTimestamp = product.nextFundingRateTimestamp := by
  unfold productFields at h
  rw [hp] at h
  simp only [perpetualFields, Option.bind_eq_some] at h
  obtain ⟨md, -, perpData, -, a', -, decimals, -, indexPrice, -, s, -, q, -, hm⟩ := h
  injection hm with hm
  subst hm
  exact ⟨rfl, rfl, rfl, rfl, rfl⟩

/-- C8 at the defect: for a future market whose enactment text does not parse,
`NewMarket` returns `StartTimestamp = CreationTimestamp = -62135596800000` (the
`UnixMilli` of Go's zero `time.Time`), and likewise `ExpiryTimestamp` and `EndTimestamp`
when the settlement text does not parse; the claim says 0. -/
theorem NewMarket_future_unparsable {F : Type} [LinearOrder F] [Zero F] (std : StdLib F)
    (market : vega.Market) (marketData : Option vega.MarketData) (candles : List apipb.Candle)
    (asset : Option vega.Asset) (vegaTime : Int) (m : Market F) (a : Str)
    (hp : market.Product = vega.Product.future a)
    (h : NewMarket std market marketData candles asset vegaTime = some m) :
    (std.ParseRFC3339 (scanTags market.Tags).enactmentTimestamp = none →
      m.StartTimestamp = -62135596800000 ∧ m.CreationTimestamp = -62135596800000) ∧
    (std.ParseRFC3339 (scanTags market.Tags).settlementTimestamp = none →
      m.ExpiryTimestamp = -62135596800000 ∧ m.EndTimestamp = -62135596800000) := by
  obtain ⟨totals, product, md, -, h2, -, -, -, -, -, -, -, -, -, -, -, -, hs, hc, he, hx, -⟩ :=
    NewMarket_eq_some h
  have hf := productFields_future_eq hp h2
  rw [hs, hc, he, hx, hf]
  constructor
  · intro hn
    simp only [parseUnixMilli, hn]
    exact ⟨rfl, rfl⟩
  · intro hn
    simp only [parseUnixMilli, hn]
    exact ⟨rfl, rfl⟩

/-- C8 on a future market without tags: the four timestamps are `-62135596800000`, not
0. -/
theorem NewMarket_future_unparsable_witness :
    (scanTags (futureMarket [] "usd".toList).Tags).enactmentTimestamp = [] ∧
    (futureOutput.StartTimestamp = -62135596800000 ∧
      futureOutput.CreationTimestamp = -62135596800000) ∧
    (futureOutput.ExpiryTimestamp = -62135596800000 ∧
      futureOutput.EndTimestamp = -62135596800000) :=
  have h := NewMarket_future_unparsable fixedPoint (futureMarket [] "usd".toList)
    (some sampleData) sampleCandles (some sampleAsset) 3661000000000 futureOutput
    "usd".toList rfl rfl
  ⟨rfl, h.1 rfl, h.2 rfl⟩

/-- C9 at the defects: `NewMarket` panics whenever the market-data pointer is nil, and
for a perpetual market whose trigger list is empty or whose first trigger has
`Every = 0`; a refresh cycle in which a market-data fetch fails panics with it. -/
theorem NewMarket_panics {F : Type} [LinearOrder F] [Zero F] (std : StdLib F)
    (market : vega.Market) (candles : List apipb.Candle) (asset : Option vega.Asset)
    (vegaTime : Int) :
    NewMarket std market none candles asset vegaTime = none ∧
    (∀ marketData a, market.Product = vega.Product.perpetual a (some []) →
      NewMarket std market marketData candles asset vegaTime = none) ∧
    (∀ marketData a trigger rest,
      market.Product = vega.Product.perpetual a (some (trigger :: rest)) →
      trigger.Every = 0 → NewMarket std market marketData candles asset vegaTime = none) ∧
    (UpdateCache fixedPoint noDataNode 0 NewApi).isNone = true := by
  refine ⟨?_, ?_, ?_, rfl⟩
  · apply Option.eq_none_iff_forall_not_mem.mpr
    intro m hm
    obtain ⟨totals, product, md, -, -, h3, -⟩ := NewMarket_eq_some hm
    cases h3
  · intro marketData a hp
    apply Option.eq_none_iff_forall_not_mem.mpr
    intro m hm
    obtain ⟨totals, product, md, -, h2, -⟩ := NewMarket_eq_some hm
    obtain ⟨s, q, hs, -⟩ := productFields_perpetual hp h2
    unfold getSecondsToFunding at hs
    rw [hp] at hs
    cases hs
  · intro marketData a trigger rest hp hz
    apply Option.eq_none_iff_forall_not_mem.mpr
    intro m hm
    obtain ⟨totals, product, md, -, h2, -⟩ := NewMarket_eq_some hm
    obtain ⟨s, q, hs, -⟩ := productFields_perpetual hp h2
    unfold getSecondsToFunding at hs
    rw [hp] at hs
    simp only [div64, mod64, hz, if_true, Option.bind_eq_some] at hs
    obtain ⟨x, -, y, hy, -⟩ := hs
    cases hy

/-- C17: whenever `NewMarket` returns a record, for a spot market the product type is
"Spot" and the creation, start, expiry, end and next-funding timestamps are 0, and for a
spot or future market the perpetual-only fields are zero or empty. -/
theorem NewMarket_irrelevant_fields {F : Type} [LinearOrder F] [Zero F] (std : StdLib F)
    (market : vega.Market) (marketData : Option vega.MarketData) (candles : List apipb.Candle)
    (asset : Option vega.Asset) (vegaTime : Int) (m : Market F)
    (h : NewMarket std market marketData candles asset vegaTime = some m) :
    (∀ q, market.Product = vega.Product.spot q →
      m.ProductType = "Spot".toList ∧ m.CreationTimestamp = 0 ∧ m.StartTimestamp = 0 ∧
      m.ExpiryTimestamp = 0 ∧ m.EndTimestamp = 0 ∧ m.NextFundingRateTimestamp = 0) ∧
    (((∃ q, market.Product = vega.Product.spot q) ∨
        ∃ a, market.Product = vega.Product.future a) →
      m.IndexPrice = 0 ∧ m.FundingRate = 0 ∧ m.NextFundingRate = 0 ∧
      m.NextFundingRateTimestamp = 0 ∧ m.IndexName = [] ∧ m.IndexCurrency = []) := by
  obtain ⟨totals, product, md, -, h2, -, -, -, -, -, -, -, -, e1, e2, e3, e4, e5, e6, e7, e8,
    e9, e10, e11⟩ := NewMarket_eq_some h
  rw [e1, e2, e3, e4, e5, e6, e7, e8, e9, e10, e11]
  constructor
  · intro q hp
    rw [productFields_spot_eq hp h2]
    exact ⟨rfl, rfl, rfl, rfl, rfl, rfl⟩
  · rintro (⟨q, hp⟩ | ⟨a, hp⟩)
    · rw [productFields_spot_eq hp h2]
      exact ⟨rfl, rfl, rfl, rfl, rfl, rfl⟩
    · rw [productFields_future_eq hp h2]
      exact ⟨rfl, rfl, rfl, rfl, rfl, rfl⟩

/-- C17 on the sample spot market. -/
theorem NewMarket_irrelevant_fields_witness :
    (spotOutput.ProductType = "Spot".toList ∧ spotOutput.CreationTimestamp = 0 ∧
      spotOutput.StartTimestamp = 0 ∧ spotOutput.ExpiryTimestamp = 0 ∧
      spotOutput.EndTimestamp = 0 ∧ spotOutput.NextFundingRateTimestamp = 0) ∧
    (spotOutput.IndexPrice = 0 ∧ spotOutput.FundingRate = 0 ∧ spotOutput.NextFundingRate = 0 ∧
      spotOutput.NextFundingRateTimestamp = 0 ∧ spotOutput.IndexName = [] ∧
      spotOutput.IndexCurrency = []) :=
  have h := NewMarket_irrelevant_fields fixedPoint spotMarket (some sampleData) sampleCandles
    (some sampleAsset) 3661000000000 spotOutput rfl
  ⟨h.1 "usd".toList rfl, h.2 (Or.inl ⟨"usd".toList, rfl⟩)⟩

/-- C18: whenever `NewMarket` returns a record, the creation timestamp equals the start
timestamp and the expiry timestamp equals the end timestamp; for a perpetual market the
product type is "Perpetual", the next funding rate equals the funding rate, the index name
is the base currency, the index currency is the target currency, and the end and expiry
timestamps equal the next-funding timestamp. -/
theorem NewMarket_mirrors {F : Type} [LinearOrder F] [Zero F] (std : StdLib F)
    (market : vega.Market) (marketData : Option vega.MarketData) (candles : List apipb.Candle)
    (asset : Option vega.Asset) (vegaTime : Int) (m : Market F)
    (h : NewMarket std market marketData candles asset vegaTime = some m) :
    (m.CreationTimestamp = m.StartTimestamp ∧ m.ExpiryTimestamp = m.EndTimestamp) ∧
    (∀ a triggers, market.Product = vega.Product.perpetual a triggers →
      m.ProductType = "Perpetual".toList ∧ m.NextFundingRate = m.FundingRate ∧
      m.IndexName = m.BaseCurrency ∧ m.IndexCurrency = m.TargetCurrency ∧
      m.EndTimestamp = m.NextFundingRateTimestamp ∧
      m.ExpiryTimestamp = m.NextFundingRateTimestamp) := by
  obtain ⟨totals, product, md, -, h2, -, -, b1, b2, -, -, -, -, e1, e2, e3, e4, e5, e6, e7, e8,
    e9, e10, e11⟩ := NewMarket_eq_some h
  rw [e1, e3, e4, e5, e6, e7, e8, e9, e10, e11, b1, b2]
  refine ⟨⟨rfl, rfl⟩, ?_⟩
  intro a triggers hp
  obtain ⟨p1, p2, p3, p4, p5⟩ := productFields_perpetual_mirrors hp h2
  exact ⟨p1, p2, p3, p4, p5, p5⟩

/-- C18 on the sample perpetual market. -/
theorem NewMarket_mirrors_witness :
    (sampleOutput.CreationTimestamp = sampleOutput.StartTimestamp ∧
      sampleOutput.ExpiryTimestamp = sampleOutput.EndTimestamp) ∧
    (sampleOutput.ProductType = "Perpetual".toList ∧
      sampleOutput.NextFundingRate = sampleOutput.FundingRate ∧
      sampleOutput.IndexName = sampleOutput.BaseCurrency ∧
      sampleOutput.IndexCurrency = sampleOutput.TargetCurrency ∧
      sampleOutput.EndTimestamp = sampleOutput.NextFundingRateTimestamp ∧
      sampleOutput.ExpiryTimestamp = sampleOutput.NextFundingRateTimestamp) :=
  have h := NewMarket_mirrors fixedPoint (perpMarket 3600 (some 0)) (some sampleData)
    sampleCandles (some sampleAsset) 3661000000000 sampleOutput rfl
  ⟨h.1, h.2 "usd".toList (some [⟨some 0, 3600⟩]) rfl⟩

/-- The first point of the schedule `initial + k * every` strictly after `T`, for the
remainder `r` of `T - initial`. -/
theorem schedule_next {T i e : Int} (he : 0 < e) :
    T < T + (e - (T - i) % e) ∧ T + (e - (T - i) % e) ≤ T + e ∧
    e ∣ T + (e - (T - i) % e) - i ∧
    ∀ n, T < n → e ∣ n - i → T + (e - (T - i) % e) ≤ n := by
  have hr0 := Int.emod_nonneg (T - i) he.ne'
  have hr1 := Int.emod_lt_of_pos (T - i) he
  have hd := Int.emod_add_ediv (T - i) e
  refine ⟨by omega, by omega, ?_, ?_⟩
  · refine ⟨(T - i) / e + 1, ?_⟩
    rw [mul_add, mul_one]
    omega
  · intro n hn hdvd
    obtain ⟨c, hc⟩ := hdvd
    by_contra hlt
    have hlt' : n < T + (e - (T - i) % e) := not_le.mp hlt
    have h1 : e * ((T - i) / e) < e * c := by omega
    have h2 : e * c < e * ((T - i) / e + 1) := by rw [mul_add, mul_one]; omega
    have h3 : (T - i) / e < c := lt_of_mul_lt_mul_left h1 he.le
    have h4 : c < (T - i) / e + 1 := lt_of_mul_lt_mul_left h2 he.le
    omega

/-- C19: for a perpetual market with `every > 0` and an upstream time `t ≥ 0` nanoseconds
whose whole seconds are at least `initial`, with `t div 10^9 - initial` and
`t + every * 10^9` inside `int64`, whenever `NewMarket` returns a record,
`NextFundingRateTimestamp / 1000` is the least integer `n > t div 10^9` with
`n - initial` divisible by `every`; it lies between 1 and `every` seconds ahead, and the
timestamp is that number of seconds times 1000. -/
theorem NewMarket_nextFunding_least {F : Type} [LinearOrder F] [Zero F] (std : StdLib F)
    (market : vega.Market) (marketData : Option vega.MarketData) (candles : List apipb.Candle)
    (asset : Option vega.Asset) (t : Int) (m : Market F) (a : Str)
    (trigger : vega.InternalTimeTrigger) (rest : List vega.InternalTimeTrigger)
    (hp : market.Product = vega.Product.perpetual a (some (trigger :: rest)))
    (hevery : 0 < trigger.Every) (ht0 : 0 ≤ t)
    (hge : trigger.GetInitial ≤ t / 1000000000)
    (hsub : t / 1000000000 - trigger.GetInitial ≤ MaxInt64)
    (hov : t + trigger.Every * 1000000000 ≤ MaxInt64)
    (h : NewMarket std market marketData candles asset t = some m) :
    m.NextFundingRateTimestamp = m.NextFundingRateTimestamp / 1000 * 1000 ∧
    t / 1000000000 < m.NextFundingRateTimestamp / 1000 ∧
    m.NextFundingRateTimestamp / 1000 ≤ t / 1000000000 + trigger.Every ∧
    trigger.Every ∣ m.NextFundingRateTimestamp / 1000 - trigger.GetInitial ∧
    ∀ n, t / 1000000000 < n → trigger.Every ∣ n - trigger.GetInitial →
      m.NextFundingRateTimestamp / 1000 ≤ n := by
  have hT : Int.tdiv t 1000000000 = t / 1000000000 := Int.tdiv_eq_ediv ht0 (by norm_num)
  have hmax : trigger.Every ≤ MaxInt64 := by unfold MaxInt64 at hov ⊢; omega
  have ht2 : t ≤ MaxInt64 := by unfold MaxInt64 at hov ⊢; omega
  have hv := getSecondsToFunding_value market a trigger rest t hp hevery hmax
    (by unfold MinInt64; omega) ht2 (by rw [hT]; exact hge) (by rw [hT]; exact hsub)
  rw [hT] at hv
  obtain ⟨totals, product, md, -, h2, -, -, -, -, -, -, -, -, -, -, -, -, -, -, -, -, -, -, hn⟩ :=
    NewMarket_eq_some h
  obtain ⟨s, q, hs, hq, hq', -⟩ := productFields_perpetual hp h2
  rw [hv] at hs
  injection hs with hs
  obtain ⟨hq4, hq3⟩ := nextFunding_value hq
  obtain ⟨n1, n2, n3, n4⟩ :=
    schedule_next (T := t / 1000000000) (i := trigger.GetInitial) hevery
  have hs1 : 1 ≤ s := by omega
  have hs2 : s ≤ trigger.Every := by omega
  have e1 : mul64 s 1000000000 = s * 1000000000 :=
    wrap64_of_range (by unfold MinInt64; omega) (by unfold MaxInt64 at hov ⊢; omega)
  have e2 : add64 t (s * 1000000000) = t + s * 1000000000 :=
    wrap64_of_range (by unfold MinInt64; omega) (by unfold MaxInt64 at hov ⊢; omega)
  have e3 : q = t / 1000000000 + s := by
    rw [hq3, e1, e2, Int.tdiv_eq_ediv (by omega) (by norm_num),
      Int.add_mul_ediv_right _ _ (by norm_num)]
  have e4 : m.NextFundingRateTimestamp / 1000 = t / 1000000000 + s := by
    rw [hn, hq', hq4, Int.mul_ediv_cancel _ (by norm_num), e3]
  have e5 : m.NextFundingRateTimestamp = (t / 1000000000 + s) * 1000 := by
    rw [hn, hq', hq4, e3]
  rw [e4]
  rw [← hs]
  exact ⟨by rw [e5, ← hs], n1, n2, n3, n4⟩

/-- C19 on the sample perpetual market: every 3600, initial 0 and upstream second 3661
give the schedule point 7200. -/
theorem NewMarket_nextFunding_least_witness :
    sampleOutput.NextFundingRateTimestamp / 1000 = 7200 ∧
    sampleOutput.NextFundingRateTimestamp = sampleOutput.NextFundingRateTimestamp / 1000 * 1000 ∧
    (3661000000000 : Int) / 1000000000 < sampleOutput.NextFundingRateTimestamp / 1000 ∧
    sampleOutput.NextFundingRateTimestamp / 1000 ≤ 3661000000000 / 1000000000 + 3600 ∧
    (3600 : Int) ∣ sampleOutput.NextFundingRateTimestamp / 1000 - 0 ∧
    ∀ n, (3661000000000 : Int) / 1000000000 < n → (3600 : Int) ∣ n - 0 →
      sampleOutput.NextFundingRateTimestamp / 1000 ≤ n :=
  ⟨by decide, NewMarket_nextFunding_least fixedPoint (perpMarket 3600 (some 0)) (some sampleData)
    sampleCandles (some sampleAsset) 3661000000000 sampleOutput "usd".toList ⟨some 0, 3600⟩ []
    rfl (by decide) (by decide) (by decide) (by decide) (by decide) rfl⟩

/-! ## Strings -/

/-- A string that starts with `p` contains `p`. -/
theorem Contains_of_isPrefixOf {p s : Str} (h : p.isPrefixOf s = true) : Contains s p = true := by
  cases s with
  | nil =>
    cases p with
    | nil => rfl
    | cons a as => simp [List.isPrefixOf] at h
  | cons c cs =>
    unfold Contains
    rw [h]
    rfl

/-- Replacing in a string that does not contain the pattern changes nothing. -/
theorem replaceFrom_of_not_Contains (old new : Str) :
    ∀ s : Str, Contains s old = false → replaceFrom old new 0 s = s := by
  intro s
  induction s with
  | nil => intro _; rfl
  | cons c cs ih =>
    intro h
    unfold Contains at h
    rw [Bool.or_eq_false_iff] at h
    unfold replaceFrom
    rw [if_neg (by rw [h.1]; exact Bool.false_ne_true), ih h.2]

/-- Skipping the characters of a matched occurrence. -/
theorem replaceFrom_skip (old new : Str) :
    ∀ (xs rest : Str), replaceFrom old new xs.length (xs ++ rest) = replaceFrom old new 0 rest := by
  intro xs
  induction xs with
  | nil => intro rest; rfl
  | cons x xs ih =>
    intro rest
    show replaceFrom old new xs.length (xs ++ rest) = replaceFrom old new 0 rest
    exact ih rest

/-- Removing a pattern that occurs once, at the start. -/
theorem ReplaceAll_leading {old s : Str} (h : old.isPrefixOf s = true)
    (hfree : Contains (s.drop old.length) old = false) :
    ReplaceAll s old [] = s.drop old.length := by
  have hs : old ++ s.drop old.length = s :=
    List.prefix_iff_eq_append.mp (List.isPrefixOf_iff_prefix.mp h)
  cases old with
  | nil =>
    simp only [List.length_nil, List.drop_zero] at hfree ⊢
    exact replaceFrom_of_not_Contains [] [] s hfree
  | cons o os =>
    generalize s.drop (o :: os).length = v at hs hfree
    subst hs
    unfold ReplaceAll
    rw [List.cons_append]
    unfold replaceFrom
    rw [if_pos (by rw [← List.cons_append]; exact List.isPrefixOf_iff_prefix.mpr (List.prefix_append _ _))]
    rw [List.nil_append, List.length_cons, Nat.add_sub_cancel, replaceFrom_skip]
    exact replaceFrom_of_not_Contains _ _ v hfree

/-! ## The tag loop -/

/-- A fold whose step overwrites a component exactly at the elements that satisfy a test
leaves the value of the last such element. -/
theorem foldl_last {α β γ : Type} (step : β → α → β) (get : β → γ) (cond : α → Bool)
    (val : α → γ) :
    ∀ (xs : List α), (∀ x ∈ xs, ∀ acc, get (step acc x) = if cond x then val x else get acc) →
      ∀ acc, get (xs.foldl step acc) = (((xs.filter cond).getLast?).map val).getD (get acc) := by
  intro xs
  induction xs using List.reverseRecOn with
  | nil => intro _ acc; rfl
  | append_singleton init x ih =>
    intro hstep acc
    rw [List.foldl_append, List.foldl_cons, List.foldl_nil, hstep x (by simp), List.filter_append]
    by_cases hc : cond x = true
    · rw [if_pos hc, List.filter_cons_of_pos hc, List.filter_nil, List.getLast?_append_cons,
        List.getLast?_singleton]
      rfl
    · rw [if_neg hc, List.filter_cons_of_neg hc, List.filter_nil, List.append_nil]
      exact ih (fun y hy => hstep y (List.mem_append_left _ hy)) acc

/-- The base currency after one round of the tag loop. -/
theorem scanTag_baseCurrency (acc : TagFields) (tag : Str) :
    (scanTag acc tag).baseCurrency =
      if (Contains tag basePrefix && ([] : List Str).all fun q => !Contains tag q) = true
      then ReplaceAll tag basePrefix [] else acc.baseCurrency := by
  unfold scanTag basePrefix
  simp only [List.all_cons, List.all_nil, Bool.and_true]
  generalize Contains tag "base:".toList = b1
  generalize Contains tag "quote:".toList = b2
  generalize Contains tag "enactment:".toList = b3
  generalize Contains tag "settlement:".toList = b4
  cases b1 <;> cases b2 <;> cases b3 <;> cases b4 <;> rfl

/-- The target currency after one round of the tag loop. -/
theorem scanTag_targetCurrency (acc : TagFields) (tag : Str) :
    (scanTag acc tag).targetCurrency =
      if (Contains tag quotePrefix && [basePrefix].all fun q => !Contains tag q) = true
      then ReplaceAll tag quotePrefix [] else acc.targetCurrency := by
  unfold scanTag basePrefix quotePrefix
  simp only [List.all_cons, List.all_nil, Bool.and_true]
  generalize Contains tag "base:".toList = b1
  generalize Contains tag "quote:".toList = b2
  generalize Contains tag "enactment:".toList = b3
  generalize Contains tag "settlement:".toList = b4
  cases b1 <;> cases b2 <;> cases b3 <;> cases b4 <;> rfl

/-- The enactment text after one round of the tag loop. -/
theorem scanTag_enactmentTimestamp (acc : TagFields) (tag : Str) :
    (scanTag acc tag).enactmentTimestamp =
      if (Contains tag enactmentPrefix &&
        [basePrefix, quotePrefix].all fun q => !Contains tag q) = true
      then ReplaceAll tag enactmentPrefix [] else acc.enactmentTimestamp := by
  unfold scanTag basePrefix quotePrefix enactmentPrefix
  simp only [List.all_cons, List.all_nil, Bool.and_true]
  generalize Contains tag "base:".toList = b1
  generalize Contains tag "quote:".toList = b2
  generalize Contains tag "enactment:".toList = b3
  generalize Contains tag "settlement:".toList = b4
  cases b1 <;> cases b2 <;> cases b3 <;> cases b4 <;> rfl

/-- The settlement text after one round of the tag loop. -/
theorem scanTag_settlementTimestamp (acc : TagFields) (tag : Str) :
    (scanTag acc tag).settlementTimestamp =
      if (Contains tag settlementPrefix &&
        [basePrefix, quotePrefix, enactmentPrefix].all fun q => !Contains tag q) = true
      then ReplaceAll tag settlementPrefix [] else acc.settlementTimestamp := by
  unfold scanTag basePrefix quotePrefix enactmentPrefix settlementPrefix
  simp only [List.all_cons, List.all_nil, Bool.and_true]
  generalize Contains tag "base:".toList = b1
  generalize Contains tag "quote:".toList = b2
  generalize Contains tag "enactment:".toList = b3
  generalize Contains tag "settlement:".toList = b4
  cases b1 <;> cases b2 <;> cases b3 <;> cases b4 <;> rfl

/-- The four strings of the tag loop: each is taken from the last tag that contains its
prefix and none of the prefixes tested before it, with every occurrence of the prefix
removed. -/
theorem scanTags_fields (tags : List Str) :
    (scanTags tags).baseCurrency = assignedField basePrefix [] tags ∧
    (scanTags tags).targetCurrency = assignedField quotePrefix [basePrefix] tags ∧
    (scanTags tags).enactmentTimestamp
      = assignedField enactmentPrefix [basePrefix, quotePrefix] tags ∧
    (scanTags tags).settlementTimestamp
      = assignedField settlementPrefix [basePrefix, quotePrefix, enactmentPrefix] tags := by
  unfold scanTags assignedField
  refine ⟨?_, ?_, ?_, ?_⟩
  · rw [foldl_last scanTag TagFields.baseCurrency _ (fun tag => ReplaceAll tag basePrefix [])
      tags (fun x _ acc => scanTag_baseCurrency acc x)]
    cases (tags.filter _).getLast? <;> rfl
  · rw [foldl_last scanTag TagFields.targetCurrency _ (fun tag => ReplaceAll tag quotePrefix [])
      tags (fun x _ acc => scanTag_targetCurrency acc x)]
    cases (tags.filter _).getLast? <;> rfl
  · rw [foldl_last scanTag TagFields.enactmentTimestamp _
      (fun tag => ReplaceAll tag enactmentPrefix [])
      tags (fun x _ acc => scanTag_enactmentTimestamp acc x)]
    cases (tags.filter _).getLast? <;> rfl
  · rw [foldl_last scanTag TagFields.settlementTimestamp _
      (fun tag => ReplaceAll tag settlementPrefix [])
      tags (fun x _ acc => scanTag_settlementTimestamp acc x)]
    cases (tags.filter _).getLast? <;> rfl

/-- C7 (as amended): whenever `NewMarket` returns a record, each of the four strings of
the tag loop is taken from the last tag that contains its prefix and none of the prefixes
tested before it (`base:` before `quote:` before `enactment:` before `settlement:`), and
is that whole tag with every occurrence of the prefix removed; the base and target
currency of the record are the first two. -/
theorem NewMarket_tag_fields {F : Type} [LinearOrder F] [Zero F] (std : StdLib F)
    (market : vega.Market) (marketData : Option vega.MarketData) (candles : List apipb.Candle)
    (asset : Option vega.Asset) (vegaTime : Int) (m : Market F)
    (h : NewMarket std market marketData candles asset vegaTime = some m) :
    m.BaseCurrency = assignedField basePrefix [] market.Tags ∧
    m.TargetCurrency = assignedField quotePrefix [basePrefix] market.Tags ∧
    (scanTags market.Tags).enactmentTimestamp
      = assignedField enactmentPrefix [basePrefix, quotePrefix] market.Tags ∧
    (scanTags market.Tags).settlementTimestamp
      = assignedField settlementPrefix [basePrefix, quotePrefix, enactmentPrefix]
        market.Tags := by
  obtain ⟨totals, product, md, -, -, -, -, b1, b2, -⟩ := NewMarket_eq_some h
  obtain ⟨f1, f2, f3, f4⟩ := scanTags_fields market.Tags
  exact ⟨b1.trans f1, b2.trans f2, f3, f4⟩

/-- C7 on the sample perpetual market. -/
theorem NewMarket_tag_fields_witness :
    sampleOutput.BaseCurrency = assignedField basePrefix [] (perpMarket 3600 (some 0)).Tags ∧
    sampleOutput.TargetCurrency
      = assignedField quotePrefix [basePrefix] (perpMarket 3600 (some 0)).Tags ∧
    (scanTags (perpMarket 3600 (some 0)).Tags).enactmentTimestamp
      = assignedField enactmentPrefix [basePrefix, quotePrefix]
        (perpMarket 3600 (some 0)).Tags ∧
    (scanTags (perpMarket 3600 (some 0)).Tags).settlementTimestamp
      = assignedField settlementPrefix [basePrefix, quotePrefix, enactmentPrefix]
        (perpMarket 3600 (some 0)).Tags :=
  NewMarket_tag_fields fixedPoint (perpMarket 3600 (some 0)) (some sampleData) sampleCandles
    (some sampleAsset) 3661000000000 sampleOutput rfl

/-- C7 as stated fails: the tag `xbase:BTC` gives the base currency `xBTC`, not the
substring `BTC` after the prefix; the tag `base:abase:b` gives `ab`, not `abase:b`; and
the tag `base:quote:X` contains `quote:` but assigns no target currency. -/
theorem NewMarket_tag_not_suffix :
    (NewMarket fixedPoint (futureMarket ["xbase:BTC".toList] "usd".toList) (some sampleData) []
        (some sampleAsset) 0).map (fun m => m.BaseCurrency) = some "xBTC".toList ∧
      suffixOfLastContaining basePrefix ["xbase:BTC".toList] = "BTC".toList ∧
    (NewMarket fixedPoint (futureMarket ["base:abase:b".toList] "usd".toList) (some sampleData) []
        (some sampleAsset) 0).map (fun m => m.BaseCurrency) = some "ab".toList ∧
      suffixOfLastContaining basePrefix ["base:abase:b".toList] = "abase:b".toList ∧
    (NewMarket fixedPoint (futureMarket ["base:quote:X".toList] "usd".toList) (some sampleData) []
        (some sampleAsset) 0).map (fun m => m.TargetCurrency) = some [] ∧
      suffixOfLastContaining quotePrefix ["base:quote:X".toList] = "X".toList := by
  exact ⟨rfl, rfl, rfl, rfl, rfl, rfl⟩

/-- A string cannot start with both `base:` and `quote:`. -/
theorem not_quote_of_base {tag : Str} (h : basePrefix.isPrefixOf tag = true) :
    quotePrefix.isPrefixOf tag = false := by
  cases tag with
  | nil => rfl
  | cons c cs =>
    have hc : c = 'b' := by
      have h' : ('b' == c && List.isPrefixOf ['a', 's', 'e', ':'] cs) = true := h
      rw [Bool.and_eq_true] at h'
      exact (beq_iff_eq.mp h'.1).symm
    subst hc
    rfl

/-- No tag with the key: the value is empty. -/
theorem lastValueOfKey_absent (key : Str) (tags : List Str)
    (h : ∀ tag ∈ tags, (key ++ [':']).isPrefixOf tag = false) : lastValueOfKey key tags = [] := by
  unfold lastValueOfKey
  have hf : tags.filter (fun tag => (key ++ [':']).isPrefixOf tag) = [] :=
    List.filter_eq_nil_iff.mpr (fun tag ht => by rw [h tag ht]; exact Bool.false_ne_true)
  rw [hf]
  rfl

/-- The base currency after one round of the tag loop, on a tag that carries `base:` and
`quote:` only at its start. -/
theorem scanTag_baseCurrency_byKey (acc : TagFields) (tag : Str)
    (hk : currencyTag tag = true) :
    (scanTag acc tag).baseCurrency =
      if ("base".toList ++ [':']).isPrefixOf tag = true
      then tag.drop ("base".toList.length + 1) else acc.baseCurrency := by
  rw [scanTag_baseCurrency]
  show (if (Contains tag basePrefix && true) = true then _ else _)
    = if basePrefix.isPrefixOf tag = true then tag.drop basePrefix.length else _
  rw [Bool.and_true]
  unfold currencyTag at hk
  by_cases hb : basePrefix.isPrefixOf tag = true
  · rw [if_pos hb] at hk
    have h2 : Contains (tag.drop basePrefix.length) basePrefix = false := by
      simpa using hk
    rw [if_pos (Contains_of_isPrefixOf hb), if_pos hb, ReplaceAll_leading hb h2]
  · rw [if_neg hb] at hk
    have hc : ¬ Contains tag basePrefix = true := by
      by_cases hq : quotePrefix.isPrefixOf tag = true
      · rw [if_pos hq, Bool.and_eq_true] at hk
        simpa using hk.1
      · rw [if_neg hq, Bool.and_eq_true] at hk
        simpa using hk.1
    rw [if_neg hc, if_neg hb]

/-- The target currency after one round of the tag loop, on a tag that carries `base:`
and `quote:` only at its start. -/
theorem scanTag_targetCurrency_byKey (acc : TagFields) (tag : Str)
    (hk : currencyTag tag = true) :
    (scanTag acc tag).targetCurrency =
      if ("quote".toList ++ [':']).isPrefixOf tag = true
      then tag.drop ("quote".toList.length + 1) else acc.targetCurrency := by
  rw [scanTag_targetCurrency]
  show (if (Contains tag quotePrefix && (!Contains tag basePrefix && true)) = true then _ else _)
    = if quotePrefix.isPrefixOf tag = true then tag.drop quotePrefix.length else _
  rw [Bool.and_true]
  unfold currencyTag at hk
  by_cases hb : basePrefix.isPrefixOf tag = true
  · have h1 := Contains_of_isPrefixOf hb
    have h2 := not_quote_of_base hb
    rw [h1, h2]
    simp
  · rw [if_neg hb] at hk
    by_cases hq : quotePrefix.isPrefixOf tag = true
    · rw [if_pos hq, Bool.and_eq_true] at hk
      have h1 : Contains tag basePrefix = false := by simpa using hk.1
      have h2 : Contains (tag.drop quotePrefix.length) quotePrefix = false := by simpa using hk.2
      rw [h1, Contains_of_isPrefixOf hq, hq, ReplaceAll_leading hq h2]
      simp
    · rw [if_neg hq, Bool.and_eq_true] at hk
      have h1 : Contains tag basePrefix = false := by simpa using hk.1
      have h2 : Contains tag quotePrefix = false := by simpa using hk.2
      rw [Bool.not_eq_true] at hq
      rw [h1, h2, hq]
      simp

/-- The two currencies of the tag loop on tags that carry `base:` and `quote:` only at
their start: the values of the last tag with key `base` and of the last tag with key
`quote`. -/
theorem scanTags_byKey (tags : List Str) (hk : tags.all currencyTag = true) :
    (scanTags tags).baseCurrency = lastValueOfKey "base".toList tags ∧
    (scanTags tags).targetCurrency = lastValueOfKey "quote".toList tags := by
  have hk' : ∀ x ∈ tags, currencyTag x = true := List.all_eq_true.mp hk
  unfold scanTags lastValueOfKey
  constructor
  · rw [foldl_last scanTag TagFields.baseCurrency
      (fun tag => ("base".toList ++ [':']).isPrefixOf tag)
      (fun tag => tag.drop ("base".toList.length + 1))
      tags (fun x hx acc => scanTag_baseCurrency_byKey acc x (hk' x hx))]
    cases (tags.filter _).getLast? <;> rfl
  · rw [foldl_last scanTag TagFields.targetCurrency
      (fun tag => ("quote".toList ++ [':']).isPrefixOf tag)
      (fun tag => tag.drop ("quote".toList.length + 1))
      tags (fun x hx acc => scanTag_targetCurrency_byKey acc x (hk' x hx))]
    cases (tags.filter _).getLast? <;> rfl

/-- C6 (as amended): whenever `NewMarket` returns a record for a market in whose tags
`base:` and `quote:` occur only at the start of a tag (a tag that starts with `base:`
contains `base:` once, a tag that starts with `quote:` contains `quote:` once and no
`base:`, every other tag contains neither), `BaseCurrency` is the value of the last tag
with key `base`, `TargetCurrency` is the value of the last tag with key `quote`, and a
field with no matching tag is the empty string. -/
theorem NewMarket_currency_tags {F : Type} [LinearOrder F] [Zero F] (std : StdLib F)
    (market : vega.Market) (marketData : Option vega.MarketData) (candles : List apipb.Candle)
    (asset : Option vega.Asset) (vegaTime : Int) (m : Market F)
    (h : NewMarket std market marketData candles asset vegaTime = some m)
    (hk : market.Tags.all currencyTag = true) :
    m.BaseCurrency = lastValueOfKey "base".toList market.Tags ∧
    m.TargetCurrency = lastValueOfKey "quote".toList market.Tags ∧
    ((∀ tag ∈ market.Tags, ("base".toList ++ [':']).isPrefixOf tag = false) →
      m.BaseCurrency = []) ∧
    ((∀ tag ∈ market.Tags, ("quote".toList ++ [':']).isPrefixOf tag = false) →
      m.TargetCurrency = []) := by
  obtain ⟨totals, product, md, -, -, -, -, b1, b2, -⟩ := NewMarket_eq_some h
  obtain ⟨f1, f2⟩ := scanTags_byKey market.Tags hk
  refine ⟨b1.trans f1, b2.trans f2, fun ha => ?_, fun ha => ?_⟩
  · rw [b1, f1, lastValueOfKey_absent _ _ ha]
  · rw [b2, f2, lastValueOfKey_absent _ _ ha]

/-- C6 on the specification's examples: the tags `base:BTC`, `quote:USD`, `other:x` give
base `BTC` and target `USD`; the tags `quote:USD`, `quote:EUR` give target `EUR` and an
empty base. -/
theorem NewMarket_currency_tags_witness :
    (sampleOutput.BaseCurrency = lastValueOfKey "base".toList (perpMarket 3600 (some 0)).Tags ∧
      lastValueOfKey "base".toList (perpMarket 3600 (some 0)).Tags = "BTC".toList) ∧
    (sampleOutput.TargetCurrency = lastValueOfKey "quote".toList (perpMarket 3600 (some 0)).Tags ∧
      lastValueOfKey "quote".toList (perpMarket 3600 (some 0)).Tags = "USD".toList) ∧
    (spotOutput.TargetCurrency = lastValueOfKey "quote".toList spotMarket.Tags ∧
      lastValueOfKey "quote".toList spotMarket.Tags = "EUR".toList) ∧
    spotOutput.BaseCurrency = [] :=
  have h1 := NewMarket_currency_tags fixedPoint (perpMarket 3600 (some 0)) (some sampleData)
    sampleCandles (some sampleAsset) 3661000000000 sampleOutput rfl rfl
  have h2 := NewMarket_currency_tags fixedPoint spotMarket (some sampleData)
    sampleCandles (some sampleAsset) 3661000000000 spotOutput rfl rfl
  ⟨⟨h1.1, rfl⟩, ⟨h1.2.1, rfl⟩, ⟨h2.2.1, rfl⟩, h2.2.2.1 (by decide)⟩

/-- C6 as stated fails when a recognised prefix occurs inside a tag of the form
`key:value`: the tag `quote:base:X` has key `quote` and value `base:X`, but the code tests
`base:` first and returns base `quote:X` and an empty target; the tag `other:base:BTC` has
key `other`, but the code returns base `other:BTC`. A tag such as `base:BTCquote:USD`,
with `quote:` after a leading `base:`, is read as the claim says. -/
theorem NewMarket_currency_tags_inner :
    keyValueForm "quote:base:X".toList = true ∧
      lastValueOfKey "quote".toList ["quote:base:X".toList] = "base:X".toList ∧
      lastValueOfKey "base".toList ["quote:base:X".toList] = [] ∧
      (NewMarket fixedPoint (futureMarket ["quote:base:X".toList] "usd".toList) (some sampleData)
        [] (some sampleAsset) 0).map (fun m => (m.BaseCurrency, m.TargetCurrency))
        = some ("quote:X".toList, []) ∧
    keyValueForm "other:base:BTC".toList = true ∧
      lastValueOfKey "base".toList ["other:base:BTC".toList] = [] ∧
      (NewMarket fixedPoint (futureMarket ["other:base:BTC".toList] "usd".toList)
        (some sampleData) [] (some sampleAsset) 0).map (fun m => m.BaseCurrency)
        = some "other:BTC".toList ∧
    keyValueForm "base:BTCquote:USD".toList = true ∧
      currencyTag "base:BTCquote:USD".toList = true ∧
      (NewMarket fixedPoint (futureMarket ["base:BTCquote:USD".toList] "usd".toList)
        (some sampleData) [] (some sampleAsset) 0).map (fun m => (m.BaseCurrency, m.TargetCurrency))
        = some ("BTCquote:USD".toList, []) := by
  exact ⟨rfl, rfl, rfl, rfl, rfl, rfl, rfl, rfl, rfl, rfl⟩

/-! ## The refresh cycle -/

/-- The guard of `UpdateCache` (api.go 304) is the negation of `resolvable`. -/
theorem resolvable_eq_false_iff (dn : DataNode) (market : vega.Market) :
    resolvable dn market = false ↔
      ((assetIdOf market).length = 0 ∨ GetAsset dn (assetIdOf market) = none) := by
  unfold resolvable
  generalize GetAsset dn (assetIdOf market) = asset
  generalize assetIdOf market = id
  cases id <;> cases asset <;> simp

/-- A market that is not resolvable leaves the build state unchanged. -/
theorem updateMarket_skip {F : Type} [LinearOrder F] [Zero F] (std : StdLib F) (dn : DataNode)
    (startMs endMs vegaTime : Int) (st : CacheBuild F) (market : vega.Market)
    (hr : resolvable dn market = false) :
    updateMarket std dn startMs endMs vegaTime st market = some st := by
  unfold updateMarket
  simp only
  rw [if_pos ((resolvable_eq_false_iff dn market).mp hr)]

/-- A resolvable market: the round succeeds exactly when the two price-level loops and
`NewMarket` do, and then files the order book and appends the record. -/
theorem updateMarket_keep {F : Type} [LinearOrder F] [Zero F] (std : StdLib F) (dn : DataNode)
    (now : Int) (st st2 : CacheBuild F) (market : vega.Market)
    (hr : resolvable dn market = true) :
    updateMarket std dn (now - 86400000) now (GetVegaTime dn) st market = some st2 ↔
      ∃ bids asks m, orderBookOf std dn market = some (bids, asks) ∧
        normalize std dn now market = some m ∧
        st2 = { api := { st.api with
                  orderBooks := Function.update st.api.orderBooks (tickerOf market)
                    (some { TickerId := tickerOf market, Bids := bids, Asks := asks }) }
                markets := st.markets ++ [m] } := by
  have hc : ¬ ((assetIdOf market).length = 0 ∨ GetAsset dn (assetIdOf market) = none) := by
    intro h
    rw [(resolvable_eq_false_iff dn market).mpr h] at hr
    exact Bool.false_ne_true hr
  unfold updateMarket orderBookOf normalize tickerOf
  simp only
  rw [if_neg hc]
  simp only [Option.bind_eq_some, Option.some.injEq, Prod.mk.injEq]
  constructor
  · rintro ⟨bids, h1, asks, h2, m, h3, h4⟩
    exact ⟨bids, asks, m, ⟨bids, h1, asks, h2, rfl, rfl⟩, h3, h4.symm⟩
  · rintro ⟨bids, asks, m, ⟨b, h1, a, h2, rfl, rfl⟩, h3, h4⟩
    exact ⟨b, h1, a, h2, m, h3, h4.symm⟩

/-- The loop of `UpdateCache` on a non-empty list. -/
theorem updateLoop_cons {F : Type} [LinearOrder F] [Zero F] (std : StdLib F) (dn : DataNode)
    (startMs endMs vegaTime : Int) (st st' : CacheBuild F) (market : vega.Market)
    (rest : List vega.Market) :
    updateLoop std dn startMs endMs vegaTime st (market :: rest) = some st' ↔
      ∃ st2, updateMarket std dn startMs endMs vegaTime st market = some st2 ∧
        updateLoop std dn startMs endMs vegaTime st2 rest = some st' := by
  simp only [updateLoop, Option.bind_eq_some]

/-- The market list the loop builds: the records of the resolvable markets, in order,
after the ones already built. -/
theorem updateLoop_markets {F : Type} [LinearOrder F] [Zero F] (std : StdLib F) (dn : DataNode)
    (now : Int) :
    ∀ (ms : List vega.Market) (st st' : CacheBuild F),
      updateLoop std dn (now - 86400000) now (GetVegaTime dn) st ms = some st' →
      st'.markets.map some =
        st.markets.map some ++ (ms.filter (resolvable dn)).map (normalize std dn now) := by
  intro ms
  induction ms with
  | nil =>
    intro st st' h
    simp only [updateLoop, Option.some.injEq] at h
    subst h
    simp
  | cons market rest ih =>
    intro st st' h
    obtain ⟨st2, h1, h2⟩ := (updateLoop_cons std dn _ _ _ st st' market rest).mp h
    have ih2 := ih st2 st' h2
    by_cases hr : resolvable dn market = true
    · obtain ⟨bids, asks, m, -, hm, hst⟩ := (updateMarket_keep std dn now st st2 market hr).mp h1
      rw [ih2, hst, List.filter_cons_of_pos hr, List.map_cons, hm, List.map_append]
      simp
    · rw [Bool.not_eq_true] at hr
      rw [updateMarket_skip std dn _ _ _ st market hr] at h1
      injection h1 with h1
      rw [ih2, ← h1, List.filter_cons_of_neg (by rw [hr]; exact Bool.false_ne_true)]

/-- The loop succeeds when every resolvable market normalises and its order book
decodes. -/
theorem updateLoop_isSome {F : Type} [LinearOrder F] [Zero F] (std : StdLib F) (dn : DataNode)
    (now : Int) :
    ∀ (ms : List vega.Market) (st : CacheBuild F),
      (∀ market ∈ ms.filter (resolvable dn),
        (normalize std dn now market).isSome = true ∧
        (orderBookOf std dn market).isSome = true) →
      ∃ st', updateLoop std dn (now - 86400000) now (GetVegaTime dn) st ms = some st' := by
  intro ms
  induction ms with
  | nil => intro st _; exact ⟨st, rfl⟩
  | cons market rest ih =>
    intro st hall
    by_cases hr : resolvable dn market = true
    · rw [List.filter_cons_of_pos hr] at hall
      obtain ⟨hn, ho⟩ := hall market (List.mem_cons_self _ _)
      obtain ⟨m, hm⟩ := Option.isSome_iff_exists.mp hn
      obtain ⟨⟨bids, asks⟩, hb⟩ := Option.isSome_iff_exists.mp ho
      obtain ⟨st', hst'⟩ := ih _ (fun x hx => hall x (List.mem_cons_of_mem _ hx))
      exact ⟨st', (updateLoop_cons std dn _ _ _ st st' market rest).mpr
        ⟨_, (updateMarket_keep std dn now st _ market hr).mpr ⟨bids, asks, m, hb, hm, rfl⟩, hst'⟩⟩
    · have hr' : resolvable dn market = false := by rw [Bool.not_eq_true] at hr; exact hr
      rw [List.filter_cons_of_neg hr] at hall
      obtain ⟨st', hst'⟩ := ih st hall
      exact ⟨st', (updateLoop_cons std dn _ _ _ st st' market rest).mpr
        ⟨st, updateMarket_skip std dn _ _ _ st market hr', hst'⟩⟩

/-- The result of `UpdateCache` in terms of the final state of its loop. -/
theorem UpdateCache_eq_some {F : Type} [LinearOrder F] [Zero F] (std : StdLib F)
    (dn : DataNode) (now : Int) (a a' : Api F) :
    UpdateCache std dn now a = some a' ↔
      ∃ st, updateLoop std dn (now - 86400000) now (GetVegaTime dn) { api := a, markets := [] }
          (GetMarkets dn) = some st ∧ a' = { st.api with markets := st.markets } := by
  unfold UpdateCache
  simp only [Option.map_eq_some']
  constructor
  · rintro ⟨st, h1, h2⟩
    exact ⟨st, h1, h2.symm⟩
  · rintro ⟨st, h1, h2⟩
    exact ⟨st, h1, h2.symm⟩

/-- C10: when every active market with a non-empty, resolvable asset id normalises and
its order book decodes, `UpdateCache` completes, and the market list it publishes is, in
upstream listing order, exactly `NewMarket` applied to those markets: the markets whose
asset id is empty or whose asset lookup failed are left out, and nothing else is dropped
or reordered. -/
theorem UpdateCache_markets {F : Type} [LinearOrder F] [Zero F] (std : StdLib F)
    (dn : DataNode) (now : Int) (a : Api F)
    (hall : ((GetMarkets dn).filter (resolvable dn)).all (fun market =>
      (normalize std dn now market).isSome && (orderBookOf std dn market).isSome) = true) :
    ∃ a', UpdateCache std dn now a = some a' ∧
      a'.markets.map some =
        ((GetMarkets dn).filter (resolvable dn)).map (normalize std dn now) := by
  have hall' : ∀ market ∈ (GetMarkets dn).filter (resolvable dn),
      (normalize std dn now market).isSome = true ∧
      (orderBookOf std dn market).isSome = true := by
    intro market hm
    have := List.all_eq_true.mp hall market hm
    rwa [Bool.and_eq_true] at this
  obtain ⟨st, hst⟩ := updateLoop_isSome std dn now (GetMarkets dn) { api := a, markets := [] } hall'
  refine ⟨{ st.api with markets := st.markets },
    (UpdateCache_eq_some std dn now a _).mpr ⟨st, hst, rfl⟩, ?_⟩
  have := updateLoop_markets std dn now (GetMarkets dn) _ st hst
  simpa using this

/-- C10 on the sample data node: of the perpetual, the future with an unknown asset, the
inactive market and the spot market, the perpetual and the spot market are published, in
that order. -/
theorem UpdateCache_markets_witness :
    ∃ a', UpdateCache fixedPoint sampleNode 0 NewApi = some a' ∧
      a'.markets.map some =
        ((GetMarkets sampleNode).filter (resolvable sampleNode)).map
          (normalize fixedPoint sampleNode 0) :=
  UpdateCache_markets fixedPoint sampleNode 0 NewApi rfl

/-- The ticker of a record `NewMarket` returns for a market. -/
theorem normalize_TickerId {F : Type} [LinearOrder F] [Zero F] {std : StdLib F}
    {dn : DataNode} {now : Int} {market : vega.Market} {m : Market F}
    (h : normalize std dn now market = some m) : m.TickerId = tickerOf market := by
  unfold normalize at h
  obtain ⟨totals, product, md, -, -, -, ht, -⟩ := NewMarket_eq_some h
  exact ht

/-- The loop of `UpdateCache` keeps the two ticker invariants: every record built so far
has an order book under its ticker, and every order book carries its key. -/
theorem updateLoop_tickers {F : Type} [LinearOrder F] [Zero F] (std : StdLib F) (dn : DataNode)
    (now : Int) :
    ∀ (ms : List vega.Market) (st st' : CacheBuild F),
      updateLoop std dn (now - 86400000) now (GetVegaTime dn) st ms = some st' →
      (∀ m ∈ st.markets, ∃ b, st.api.orderBooks m.TickerId = some b) →
      (∀ k b, st.api.orderBooks k = some b → b.TickerId = k) →
      (∀ m ∈ st'.markets, ∃ b, st'.api.orderBooks m.TickerId = some b) ∧
      (∀ k b, st'.api.orderBooks k = some b → b.TickerId = k) := by
  intro ms
  induction ms with
  | nil =>
    intro st st' h h1 h2
    simp only [updateLoop, Option.some.injEq] at h
    subst h
    exact ⟨h1, h2⟩
  | cons market rest ih =>
    intro st st' h h1 h2
    obtain ⟨st2, hm, hl⟩ := (updateLoop_cons std dn _ _ _ st st' market rest).mp h
    by_cases hr : resolvable dn market = true
    · obtain ⟨bids, asks, m, -, hn, hst⟩ := (updateMarket_keep std dn now st st2 market hr).mp hm
      have ht := normalize_TickerId hn
      apply ih st2 st' hl
      · intro m' hm'
        rw [hst] at hm' ⊢
        simp only [List.mem_append, List.mem_singleton] at hm'
        simp only [Function.update_apply]
        by_cases hk : m'.TickerId = tickerOf market
        · rw [if_pos hk]
          exact ⟨_, rfl⟩
        · rw [if_neg hk]
          rcases hm' with hm' | hm'
          · exact h1 m' hm'
          · rw [hm'] at hk
            exact absurd ht hk
      · intro k b hb
        rw [hst] at hb
        simp only [Function.update_apply] at hb
        by_cases hk : k = tickerOf market
        · rw [if_pos hk] at hb
          injection hb with hb
          rw [← hb, hk]
        · rw [if_neg hk] at hb
          exact h2 k b hb
    · rw [Bool.not_eq_true] at hr
      rw [updateMarket_skip std dn _ _ _ st market hr] at hm
      injection hm with hm
      subst hm
      exact ih st st' hl h1 h2

/-- The loop of `UpdateCache` leaves alone every order book whose key is not the ticker
of a resolvable market. -/
theorem updateLoop_orderBooks_frame {F : Type} [LinearOrder F] [Zero F] (std : StdLib F)
    (dn : DataNode) (now : Int) (k : Str) :
    ∀ (ms : List vega.Market) (st st' : CacheBuild F),
      updateLoop std dn (now - 86400000) now (GetVegaTime dn) st ms = some st' →
      (∀ market ∈ ms, resolvable dn market = true → tickerOf market ≠ k) →
      st'.api.orderBooks k = st.api.orderBooks k := by
  intro ms
  induction ms with
  | nil =>
    intro st st' h _
    simp only [updateLoop, Option.some.injEq] at h
    subst h
    rfl
  | cons market rest ih =>
    intro st st' h hk
    obtain ⟨st2, hm, hl⟩ := (updateLoop_cons std dn _ _ _ st st' market rest).mp h
    rw [ih st2 st' hl (fun x hx => hk x (List.mem_cons_of_mem _ hx))]
    by_cases hr : resolvable dn market = true
    · obtain ⟨bids, asks, m, -, -, hst⟩ := (updateMarket_keep std dn now st st2 market hr).mp hm
      rw [hst]
      exact Function.update_noteq (Ne.symm (hk market (List.mem_cons_self _ _) hr)) _ _
    · rw [Bool.not_eq_true] at hr
      rw [updateMarket_skip std dn _ _ _ st market hr] at hm
      injection hm with hm
      rw [hm]

/-- C20: after `UpdateCache`, from a prior cache in which every order-book entry carries
the key it is stored under, every record of the published market list has an order-book
entry stored under its `TickerId`, that `TickerId` is the instrument code of an active
upstream market with every `/` removed, and every order-book entry carries the key it is
stored under. -/
theorem UpdateCache_tickers {F : Type} [LinearOrder F] [Zero F] (std : StdLib F)
    (dn : DataNode) (now : Int) (a a' : Api F)
    (hprior : ∀ k b, a.orderBooks k = some b → b.TickerId = k)
    (h : UpdateCache std dn now a = some a') :
    (∀ m ∈ a'.markets, ∃ b, a'.orderBooks m.TickerId = some b ∧ b.TickerId = m.TickerId) ∧
    (∀ m ∈ a'.markets, ∃ market ∈ GetMarkets dn,
      m.TickerId = ReplaceAll market.Code "/".toList []) ∧
    (∀ k b, a'.orderBooks k = some b → b.TickerId = k) := by
  obtain ⟨st, hst, ha⟩ := (UpdateCache_eq_some std dn now a a').mp h
  obtain ⟨t1, t2⟩ := updateLoop_tickers std dn now (GetMarkets dn) _ st hst
    (fun m hm => by cases hm) hprior
  have hmk := updateLoop_markets std dn now (GetMarkets dn) _ st hst
  subst ha
  refine ⟨fun m hm => ?_, fun m hm => ?_, t2⟩
  · obtain ⟨b, hb⟩ := t1 m hm
    exact ⟨b, hb, t2 _ b hb⟩
  · have hs : some m ∈ st.markets.map some := List.mem_map_of_mem _ hm
    rw [hmk] at hs
    simp only [List.map_nil, List.nil_append, List.mem_map, List.mem_filter] at hs
    obtain ⟨market, ⟨hmem, -⟩, hn⟩ := hs
    exact ⟨market, hmem, normalize_TickerId hn⟩

/-- C20 on the sample data node, from the empty cache. -/
theorem UpdateCache_tickers_witness :
    sampleCache.markets.map (fun m => m.TickerId) = ["BTCUSD".toList, "SOLUSD".toList] ∧
    (∀ m ∈ sampleCache.markets,
      ∃ b, sampleCache.orderBooks m.TickerId = some b ∧ b.TickerId = m.TickerId) ∧
    (∀ m ∈ sampleCache.markets, ∃ market ∈ GetMarkets sampleNode,
      m.TickerId = ReplaceAll market.Code "/".toList []) ∧
    (∀ k b, sampleCache.orderBooks k = some b → b.TickerId = k) :=
  ⟨rfl, UpdateCache_tickers fixedPoint sampleNode 0 NewApi sampleCache
    (fun _ _ hb => nomatch hb) rfl⟩

/-- C11 (as amended): after `UpdateCache`, the market list holds the records of this
cycle's resolvable markets and nothing else, so a market whose asset cannot be resolved
has no entry in it and the list depends only on this cycle's responses; the order-book
map is not rebuilt: every entry whose key is not the ticker of a market resolved in this
cycle is what it was before the cycle. -/
theorem UpdateCache_frame {F : Type} [LinearOrder F] [Zero F] (std : StdLib F)
    (dn : DataNode) (now : Int) (a a' : Api F)
    (h : UpdateCache std dn now a = some a') :
    a'.markets.map some =
      ((GetMarkets dn).filter (resolvable dn)).map (normalize std dn now) ∧
    ∀ k, (∀ market ∈ GetMarkets dn, resolvable dn market = true → tickerOf market ≠ k) →
      a'.orderBooks k = a.orderBooks k := by
  obtain ⟨st, hst, ha⟩ := (UpdateCache_eq_some std dn now a a').mp h
  have hmk := updateLoop_markets std dn now (GetMarkets dn) _ st hst
  subst ha
  refine ⟨by simpa using hmk, fun k hk => ?_⟩
  exact updateLoop_orderBooks_frame std dn now k (GetMarkets dn) _ st hst hk

/-- C11 on the sample data node, from a cache that holds a record and an order book for
the future market `ETH/USD`, whose asset does not resolve in this cycle: the record is
gone, the order book is still there. -/
theorem UpdateCache_frame_witness :
    refreshedCache.markets.map some =
      ((GetMarkets sampleNode).filter (resolvable sampleNode)).map
        (normalize fixedPoint sampleNode 0) ∧
    refreshedCache.orderBooks "ETHUSD".toList = staleCache.orderBooks "ETHUSD".toList :=
  have h := UpdateCache_frame fixedPoint sampleNode 0 staleCache refreshedCache rfl
  ⟨h.1, h.2 "ETHUSD".toList (by decide)⟩

/-- C11 as stated fails for the order-book map: the future market `ETH/USD` of the
sample data node is active and its asset does not resolve, the prior cache holds an order
book under `ETHUSD`, and after the cycle that order book is still served. -/
theorem UpdateCache_keeps_stale_book :
    GetMarkets sampleNode
        = [perpMarket 3600 (some 0), futureMarket [] "gone".toList, spotMarket] ∧
      resolvable sampleNode (futureMarket [] "gone".toList) = false ∧
      tickerOf (futureMarket [] "gone".toList) = "ETHUSD".toList ∧
      (UpdateCache fixedPoint sampleNode 0 staleCache).map
          (fun a => (a.markets.map (fun m => m.TickerId), a.orderBooks "ETHUSD".toList))
        = some (["BTCUSD".toList, "SOLUSD".toList],
            some { TickerId := "ETHUSD".toList, Bids := some [[1, 2]], Asks := none }) := by
  exact ⟨rfl, rfl, rfl, rfl⟩

/-! ## Order books -/

/-- The price-level loop appends one `[quantity, price]` pair per level, in order. -/
theorem levelLoop_spec {F : Type} (std : StdLib F) (market : vega.Market) :
    ∀ (levels : List vega.PriceLevel) (arr r : Slice (List F)),
      levelLoop std market arr levels = some r →
      ∃ pairs, r.getD [] = arr.getD [] ++ pairs ∧
        List.Forall₂ (fun (b : vega.PriceLevel) (pair : List F) => ∃ qty price,
          fromBigNumber std (FormatUint b.Volume) (toUint64 market.PositionDecimalPlaces)
            = some qty ∧
          fromBigNumber std b.Price market.DecimalPlaces = some price ∧
          pair = [qty, price]) levels pairs := by
  intro levels
  induction levels with
  | nil =>
    intro arr r h
    simp only [levelLoop, Option.some.injEq] at h
    subst h
    exact ⟨[], (List.append_nil _).symm, List.Forall₂.nil⟩
  | cons b rest ih =>
    intro arr r h
    simp only [levelLoop, Option.bind_eq_some] at h
    obtain ⟨qty, h1, price, h2, h3⟩ := h
    obtain ⟨pairs, hp, hf⟩ := ih _ r h3
    refine ⟨[qty, price] :: pairs, ?_, List.Forall₂.cons ⟨qty, price, h1, h2, rfl⟩ hf⟩
    rw [hp, Option.getD_some, List.append_assoc, List.singleton_append]

/-- C13: whenever the order book of a market decodes, the bid sequence `UpdateCache`
builds has the length of the raw bid list and its i-th element is the pair
`[decode(volume_i, position decimal places), decode(price_i, decimal places)]` of the
i-th raw level, quantity first, in input order; the same holds for the asks. -/
theorem orderBookOf_levels {F : Type} (std : StdLib F) (dn : DataNode) (market : vega.Market)
    (bids asks : Slice (List F)) (h : orderBookOf std dn market = some (bids, asks)) :
    ((bids.getD []).length = (GetOrderBook dn market.Id).1.length ∧
      List.Forall₂ (fun (b : vega.PriceLevel) (pair : List F) => ∃ qty price,
        fromBigNumber std (FormatUint b.Volume) (toUint64 market.PositionDecimalPlaces)
          = some qty ∧
        fromBigNumber std b.Price market.DecimalPlaces = some price ∧
        pair = [qty, price]) (GetOrderBook dn market.Id).1 (bids.getD [])) ∧
    ((asks.getD []).length = (GetOrderBook dn market.Id).2.length ∧
      List.Forall₂ (fun (b : vega.PriceLevel) (pair : List F) => ∃ qty price,
        fromBigNumber std (FormatUint b.Volume) (toUint64 market.PositionDecimalPlaces)
          = some qty ∧
        fromBigNumber std b.Price market.DecimalPlaces = some price ∧
        pair = [qty, price]) (GetOrderBook dn market.Id).2 (asks.getD [])) := by
  simp only [orderBookOf, Option.bind_eq_some, Option.some.injEq, Prod.mk.injEq] at h
  obtain ⟨b, h1, a, h2, rfl, rfl⟩ := h
  obtain ⟨p1, e1, f1⟩ := levelLoop_spec std market _ none b h1
  obtain ⟨p2, e2, f2⟩ := levelLoop_spec std market _ none a h2
  rw [Option.getD_none, List.nil_append] at e1 e2
  rw [e1, e2]
  exact ⟨⟨f1.length_eq.symm, f1⟩, ⟨f2.length_eq.symm, f2⟩⟩

/-- C13 on the sample data node: one bid `(99, 5)` and the asks `(101, 4)`, `(102, 6)`
become `[[5, 99]]` and `[[4, 101], [6, 102]]` (in units of `10^-16`). -/
theorem orderBookOf_levels_witness :
    orderBookOf fixedPoint sampleNode (perpMarket 3600 (some 0))
      = some (some [[50000000000000000, 990000000000000000]],
          some [[40000000000000000, 1010000000000000000],
            [60000000000000000, 1020000000000000000]]) ∧
    (([[50000000000000000, 990000000000000000]] : List (List Int)).length
        = (GetOrderBook sampleNode (perpMarket 3600 (some 0)).Id).1.length ∧
      List.Forall₂ (fun (b : vega.PriceLevel) (pair : List Int) => ∃ qty price,
        fromBigNumber fixedPoint (FormatUint b.Volume)
          (toUint64 (perpMarket 3600 (some 0)).PositionDecimalPlaces) = some qty ∧
        fromBigNumber fixedPoint b.Price (perpMarket 3600 (some 0)).DecimalPlaces = some price ∧
        pair = [qty, price]) (GetOrderBook sampleNode (perpMarket 3600 (some 0)).Id).1
        [[50000000000000000, 990000000000000000]]) ∧
    (([[40000000000000000, 1010000000000000000],
          [60000000000000000, 1020000000000000000]] : List (List Int)).length
        = (GetOrderBook sampleNode (perpMarket 3600 (some 0)).Id).2.length ∧
      List.Forall₂ (fun (b : vega.PriceLevel) (pair : List Int) => ∃ qty price,
        fromBigNumber fixedPoint (FormatUint b.Volume)
          (toUint64 (perpMarket 3600 (some 0)).PositionDecimalPlaces) = some qty ∧
        fromBigNumber fixedPoint b.Price (perpMarket 3600 (some 0)).DecimalPlaces = some price ∧
        pair = [qty, price]) (GetOrderBook sampleNode (perpMarket 3600 (some 0)).Id).2
        [[40000000000000000, 1010000000000000000],
          [60000000000000000, 1020000000000000000]]) :=
  ⟨rfl, orderBookOf_levels fixedPoint sampleNode (perpMarket 3600 (some 0)) _ _ rfl⟩

/-- C14 at the defect: for an empty (or nil) raw list the price-level loop returns the
nil slice it started from, so the order book `UpdateCache` stores has nil `Bids` and
`Asks`, not empty sequences. -/
theorem orderBook_empty_is_nil {F : Type} (std : StdLib F) (market : vega.Market) :
    levelLoop std market none [] = some none ∧
    orderBookOf fixedPoint emptyBookNode (perpMarket 3600 (some 0)) = some (none, none) ∧
    (UpdateCache fixedPoint emptyBookNode 0 NewApi).map (fun a => a.orderBooks "BTCUSD".toList)
      = some (some { TickerId := "BTCUSD".toList, Bids := none, Asks := none }) :=
  ⟨rfl, rfl, rfl⟩

/-! ## The cache between the steps of a cycle -/

/-- The loop with its intermediate cache values returns the final state of the plain
loop; every intermediate value, and the final one, has the market list the loop started
with, and each of its order-book entries is either the one the loop started with or a
complete order book built for a resolvable market with that ticker. -/
theorem updateLoopStates_spec {F : Type} [LinearOrder F] [Zero F] (std : StdLib F)
    (dn : DataNode) (now : Int) :
    ∀ (ms : List vega.Market) (st : CacheBuild F) (r : List (Api F) × CacheBuild F),
      updateLoopStates std dn (now - 86400000) now (GetVegaTime dn) st ms = some r →
      updateLoop std dn (now - 86400000) now (GetVegaTime dn) st ms = some r.2 ∧
      ∀ s, (s ∈ r.1 ∨ s = r.2.api) →
        s.markets = st.api.markets ∧
        ∀ k, s.orderBooks k = st.api.orderBooks k ∨
          ∃ market ∈ ms, resolvable dn market = true ∧ tickerOf market = k ∧
            ∃ bids asks, orderBookOf std dn market = some (bids, asks) ∧
              s.orderBooks k = some { TickerId := k, Bids := bids, Asks := asks } := by
  intro ms
  induction ms with
  | nil =>
    intro st r h
    simp only [updateLoopStates, Option.some.injEq] at h
    subst h
    refine ⟨rfl, ?_⟩
    rintro s (hs | hs)
    · cases hs
    · subst hs
      exact ⟨rfl, fun k => Or.inl rfl⟩
  | cons market rest ih =>
    intro st r h
    simp only [updateLoopStates, Option.bind_eq_some, Option.some.injEq] at h
    obtain ⟨st2, hm, r', hr', hr⟩ := h
    obtain ⟨hl, hs'⟩ := ih st2 r' hr'
    have hr2 : r.2 = r'.2 := by rw [← hr]
    refine ⟨?_, ?_⟩
    · rw [hr2]
      exact (updateLoop_cons std dn _ _ _ st r'.2 market rest).mpr ⟨st2, hm, hl⟩
    · by_cases hres : resolvable dn market = true
      · obtain ⟨bids, asks, m, hob, -, hst⟩ :=
          (updateMarket_keep std dn now st st2 market hres).mp hm
        have hc : ¬ ((assetIdOf market).length = 0 ∨ GetAsset dn (assetIdOf market) = none) := by
          intro hcc
          rw [(resolvable_eq_false_iff dn market).mpr hcc] at hres
          exact Bool.false_ne_true hres
        rw [if_neg hc] at hr
        have hst2 : st2.api.markets = st.api.markets := by rw [hst]
        have hbook : ∀ k, st2.api.orderBooks k = st.api.orderBooks k ∨
            (tickerOf market = k ∧
              st2.api.orderBooks k = some { TickerId := k, Bids := bids, Asks := asks }) := by
          intro k
          rw [hst]
          simp only [Function.update_apply]
          by_cases hk : k = tickerOf market
          · rw [if_pos hk]
            exact Or.inr ⟨hk.symm, by rw [hk]⟩
          · rw [if_neg hk]
            exact Or.inl rfl
        have key : ∀ s, (s ∈ r'.1 ∨ s = r'.2.api) ∨ s = st2.api →
            s.markets = st.api.markets ∧
            ∀ k, s.orderBooks k = st.api.orderBooks k ∨
              ∃ mk ∈ market :: rest, resolvable dn mk = true ∧ tickerOf mk = k ∧
                ∃ bids asks, orderBookOf std dn mk = some (bids, asks) ∧
                  s.orderBooks k = some { TickerId := k, Bids := bids, Asks := asks } := by
          rintro s (hs | hs)
          · obtain ⟨q1, q2⟩ := hs' s hs
            refine ⟨q1.trans hst2, fun k => ?_⟩
            rcases q2 k with q | ⟨mk, hmk, q⟩
            · rcases hbook k with hb | ⟨hb1, hb2⟩
              · exact Or.inl (q.trans hb)
              · exact Or.inr ⟨market, List.mem_cons_self _ _, hres, hb1, bids, asks, hob,
                  q.trans hb2⟩
            · exact Or.inr ⟨mk, List.mem_cons_of_mem _ hmk, q⟩
          · subst hs
            refine ⟨hst2, fun k => ?_⟩
            rcases hbook k with hb | ⟨hb1, hb2⟩
            · exact Or.inl hb
            · exact Or.inr ⟨market, List.mem_cons_self _ _, hres, hb1, bids, asks, hob, hb2⟩
        rintro s (hs | hs)
        · rw [← hr] at hs
          rcases List.mem_cons.mp hs with hs | hs
          · exact key s (Or.inr hs)
          · exact key s (Or.inl (Or.inl hs))
        · rw [hr2] at hs
          exact key s (Or.inl (Or.inr hs))
      · rw [Bool.not_eq_true] at hres
        have hc := (resolvable_eq_false_iff dn market).mp hres
        rw [if_pos hc] at hr
        rw [updateMarket_skip std dn _ _ _ st market hres] at hm
        injection hm with hm
        subst hm
        intro s hs
        have hs2 : s ∈ r'.1 ∨ s = r'.2.api := by
          rcases hs with hs | hs
          · rw [← hr] at hs
            exact Or.inl hs
          · rw [hr2] at hs
            exact Or.inr hs
        obtain ⟨q1, q2⟩ := hs' s hs2
        refine ⟨q1, fun k => ?_⟩
        rcases q2 k with q | ⟨mk, hmk, q⟩
        · exact Or.inl q
        · exact Or.inr ⟨mk, List.mem_cons_of_mem _ hmk, q⟩

/-- C12 (as amended): take the values of the cache at the points between the
lock-delimited steps of one refresh cycle. They start at the pre-cycle cache and end at
the cache `UpdateCache` returns. At every point the market list equals its pre-cycle or
its post-cycle value. The order-book map is updated in place, one entry per step: at
every point each single entry equals its pre-cycle value or is a complete order book
built in this cycle for a resolvable market with that ticker. -/
theorem cycleStates_spec {F : Type} [LinearOrder F] [Zero F] (std : StdLib F)
    (dn : DataNode) (now : Int) (a : Api F) (states : List (Api F))
    (h : cycleStates std dn now a = some states) :
    ∃ a', UpdateCache std dn now a = some a' ∧
      states.head? = some a ∧ states.getLast? = some a' ∧
      (∀ s ∈ states, s.markets = a.markets ∨ s.markets = a'.markets) ∧
      ∀ s ∈ states, ∀ k, s.orderBooks k = a.orderBooks k ∨
        ∃ market ∈ GetMarkets dn, resolvable dn market = true ∧ tickerOf market = k ∧
          ∃ bids asks, orderBookOf std dn market = some (bids, asks) ∧
            s.orderBooks k = some { TickerId := k, Bids := bids, Asks := asks } := by
  unfold cycleStates at h
  simp only [Option.map_eq_some'] at h
  obtain ⟨r, hr, hs⟩ := h
  obtain ⟨hl, hp⟩ := updateLoopStates_spec std dn now (GetMarkets dn) _ r hr
  refine ⟨{ r.2.api with markets := r.2.markets },
    (UpdateCache_eq_some std dn now a _).mpr ⟨r.2, hl, rfl⟩, ?_, ?_, ?_, ?_⟩
  · rw [← hs]
    rfl
  · rw [← hs, List.getLast?_append_cons, List.getLast?_singleton]
  · intro s hmem
    rw [← hs] at hmem
    simp only [List.mem_cons, List.mem_append, List.mem_singleton, List.not_mem_nil,
      or_false] at hmem
    rcases hmem with (hmem | hmem) | hmem
    · rw [hmem]
      exact Or.inl rfl
    · exact Or.inl (hp s (Or.inl hmem)).1
    · rw [hmem]
      exact Or.inr rfl
  · intro s hmem k
    rw [← hs] at hmem
    simp only [List.mem_cons, List.mem_append, List.mem_singleton, List.not_mem_nil,
      or_false] at hmem
    rcases hmem with (hmem | hmem) | hmem
    · rw [hmem]
      exact Or.inl rfl
    · exact (hp s (Or.inl hmem)).2 k
    · rw [hmem]
      exact (hp r.2.api (Or.inr rfl)).2 k

/-- C12 on the sample data node, from the empty cache. -/
theorem cycleStates_spec_witness :
    ∃ a', UpdateCache fixedPoint sampleNode 0 NewApi = some a' ∧
      sampleStates.head? = some NewApi ∧ sampleStates.getLast? = some a' ∧
      (∀ s ∈ sampleStates, s.markets = (NewApi : Api Int).markets ∨ s.markets = a'.markets) ∧
      ∀ s ∈ sampleStates, ∀ k, s.orderBooks k = (NewApi : Api Int).orderBooks k ∨
        ∃ market ∈ GetMarkets sampleNode, resolvable sampleNode market = true ∧
          tickerOf market = k ∧
          ∃ bids asks, orderBookOf fixedPoint sampleNode market = some (bids, asks) ∧
            s.orderBooks k = some { TickerId := k, Bids := bids, Asks := asks } :=
  cycleStates_spec fixedPoint sampleNode 0 NewApi sampleStates rfl

/-- C12 as stated fails for the order-book map: in the cycle against the sample data
node from the empty cache, after the first order-book assignment the map holds an entry
for `BTCUSD` and none for `SOLUSD`, which is neither the pre-cycle map (no entry for
`BTCUSD`) nor the post-cycle map (an entry for `SOLUSD`); the market list changes only in
the last step. -/
theorem cycleStates_partial_books :
    (cycleStates fixedPoint sampleNode 0 NewApi).map (fun states => states.map (fun s =>
        ((s.orderBooks "BTCUSD".toList).isSome, (s.orderBooks "SOLUSD".toList).isSome,
          s.markets.map (fun m => m.TickerId))))
      = some [(false, false, []), (true, false, []), (true, true, []),
          (true, true, ["BTCUSD".toList, "SOLUSD".toList])] := by
  rfl

/-! ## Digits -/

/-- A digit character reads back as its value and is none of the characters the decimal
syntax treats specially. -/
theorem digitChar_facts {k : Nat} (hk : k < 10) :
    digitValue (digitChar k) = some k ∧ digitChar k ≠ 'E' ∧ digitChar k ≠ 'e' ∧
      digitChar k ≠ '.' ∧ digitChar k ≠ '+' ∧ digitChar k ≠ '-' := by
  interval_cases k <;> decide

/-- Reading one digit character. -/
theorem parseDigitsFrom_digit {k : Nat} (hk : k < 10) (a : Nat) (rest : Str) :
    parseDigitsFrom a (digitChar k :: rest) = parseDigitsFrom (10 * a + k) rest := by
  simp only [parseDigitsFrom, (digitChar_facts hk).1]

/-- The digits `formatDigits` writes: a non-empty run of digit characters in front of the
accumulator that reads back as the number. -/
theorem formatDigits_spec :
    ∀ (fuel n : Nat) (acc : Str), n < fuel →
      ∃ ds : Str, formatDigits fuel n acc = ds ++ acc ∧ ds ≠ [] ∧
        (∀ c ∈ ds, ∃ k, k < 10 ∧ c = digitChar k) ∧
        ∀ (a : Nat) (rest : Str),
          parseDigitsFrom a (ds ++ rest) = parseDigitsFrom (a * 10 ^ ds.length + n) rest := by
  intro fuel
  induction fuel with
  | zero => intro n acc h; omega
  | succ fuel ih =>
    intro n acc h
    unfold formatDigits
    by_cases h0 : n / 10 = 0
    · rw [if_pos h0]
      have hn : n % 10 = n := by omega
      have hlt : n < 10 := by omega
      refine ⟨[digitChar (n % 10)], rfl, by simp, ?_, ?_⟩
      · intro c hc
        rw [List.mem_singleton] at hc
        exact ⟨n % 10, by omega, hc⟩
      · intro a rest
        rw [List.singleton_append, parseDigitsFrom_digit (by omega), hn, List.length_singleton,
          pow_one, Nat.mul_comm]
    · rw [if_neg h0]
      obtain ⟨ds, e1, e2, e3, e4⟩ := ih (n / 10) (digitChar (n % 10) :: acc) (by omega)
      refine ⟨ds ++ [digitChar (n % 10)], ?_, by simp, ?_, ?_⟩
      · rw [e1, List.append_assoc, List.singleton_append]
      · intro c hc
        rcases List.mem_append.mp hc with hc | hc
        · exact e3 c hc
        · rw [List.mem_singleton] at hc
          exact ⟨n % 10, by omega, hc⟩
      · intro a rest
        rw [List.append_assoc, List.singleton_append, e4,
          parseDigitsFrom_digit (Nat.mod_lt _ (by norm_num)), List.length_append,
          List.length_singleton, pow_succ, ← Nat.mul_assoc]
        congr 1
        have := Nat.div_add_mod n 10
        omega

/-- A run of digit characters has no exponent mark. -/
theorem splitExponent_digits :
    ∀ ds : Str, (∀ c ∈ ds, ∃ k, k < 10 ∧ c = digitChar k) → Decimal.splitExponent ds = none := by
  intro ds
  induction ds with
  | nil => intro _; rfl
  | cons c cs ih =>
    intro h
    obtain ⟨k, hk, hc⟩ := h c (List.mem_cons_self _ _)
    obtain ⟨-, f1, f2, -⟩ := digitChar_facts hk
    unfold Decimal.splitExponent
    rw [if_neg (by rw [hc]; exact not_or.mpr ⟨f1, f2⟩),
      ih (fun c' hc' => h c' (List.mem_cons_of_mem _ hc'))]

/-- A run of digit characters has no decimal point. -/
theorem splitPoint_digits :
    ∀ ds : Str, (∀ c ∈ ds, ∃ k, k < 10 ∧ c = digitChar k) → Decimal.splitPoint ds = none := by
  intro ds
  induction ds with
  | nil => intro _; rfl
  | cons c cs ih =>
    intro h
    obtain ⟨k, hk, hc⟩ := h c (List.mem_cons_self _ _)
    obtain ⟨-, -, -, f3, -⟩ := digitChar_facts hk
    unfold Decimal.splitPoint
    rw [if_neg (by rw [hc]; exact f3), ih (fun c' hc' => h c' (List.mem_cons_of_mem _ hc'))]

/-- A string that starts with a digit character has no sign. -/
theorem parseSigned_digit {k : Nat} (hk : k < 10) (cs : Str) :
    parseSigned (digitChar k :: cs) = (parseUnsigned (digitChar k :: cs)).map Int.ofNat := by
  interval_cases k <;> rfl

/-- The decimal text of a natural number parses back to it. -/
theorem NewFromString_FormatUint (v : Nat) :
    Decimal.NewFromString (FormatUint v) = some ⟨v, 0⟩ := by
  obtain ⟨ds, e1, e2, e3, e4⟩ := formatDigits_spec (v + 1) v [] (Nat.lt_succ_self v)
  rw [List.append_nil] at e1
  have hu : parseUnsigned ds = some v := by
    unfold parseUnsigned
    have hne : ds.isEmpty = false := by
      cases ds with
      | nil => exact absurd rfl e2
      | cons c cs => rfl
    rw [hne]
    have := e4 0 []
    rw [List.append_nil, Nat.zero_mul, Nat.zero_add] at this
    rw [if_neg Bool.false_ne_true, this]
    rfl
  have hs : parseSigned ds = some (v : Int) := by
    cases ds with
    | nil => exact absurd rfl e2
    | cons c cs =>
      obtain ⟨k, hk, hc⟩ := e3 c (List.mem_cons_self _ _)
      subst hc
      rw [parseSigned_digit hk, hu]
      rfl
  unfold FormatUint
  rw [e1]
  unfold Decimal.NewFromString
  simp only [splitExponent_digits ds e3, Decimal.parseMantissa, splitPoint_digits ds e3, hs,
    Option.map_some']
  rfl

/-! ## Division by a power of ten -/

/-- Comparing zero with a positive coefficient at the same exponent. -/
theorem Decimal.Cmp_zero_pos (w : Int) (e : Int) (hw : 0 < w) :
    Decimal.Cmp ⟨0, e⟩ ⟨w, e⟩ = -1 := by
  unfold Decimal.Cmp Decimal.rescale
  simp only [min_self, if_true, zero_sub]
  rw [Int.sign_neg, Int.sign_eq_one_of_pos hw]

/-- Zero divided by a positive decimal of exponent 0 or -16 is zero at sixteen places. -/
theorem Decimal.zero_Div (w : Int) (e2 : Int) (hw : 0 < w) (he : e2 = 0 ∨ e2 = -16) :
    Decimal.Div ⟨0, 0⟩ ⟨w, e2⟩ = some ⟨0, -16⟩ := by
  have hw' : w ≠ 0 := hw.ne'
  have habs : ((w.natAbs : Nat) : Int) = w := Int.natAbs_of_nonneg hw.le
  rcases he with rfl | rfl
  · have hq : Decimal.QuoRem ⟨0, 0⟩ ⟨w, 0⟩ 16 = some (⟨0, -16⟩, ⟨0, -16⟩) := by
      unfold Decimal.QuoRem
      simp only [if_neg hw']
      rw [if_neg (by unfold MaxInt32 MinInt32; norm_num), if_neg (by norm_num)]
      simp
    unfold Decimal.Div Decimal.DivRound Decimal.DivisionPrecision
    rw [hq]
    simp only [Int.natAbs_zero, Nat.zero_mul, Nat.cast_zero, zero_mul, habs]
    rw [show (-16 : Int) + 16 = 0 from by norm_num, Decimal.Cmp_zero_pos w 0 hw]
    rfl
  · have hq : Decimal.QuoRem ⟨0, 0⟩ ⟨w, -16⟩ 16 = some (⟨0, -16⟩, ⟨0, -32⟩) := by
      unfold Decimal.QuoRem
      simp only [if_neg hw']
      rw [if_neg (by unfold MaxInt32 MinInt32; norm_num), if_neg (by norm_num)]
      simp
    unfold Decimal.Div Decimal.DivRound Decimal.DivisionPrecision
    rw [hq]
    simp only [Int.natAbs_zero, Nat.zero_mul, Nat.cast_zero, zero_mul, habs]
    rw [show (-32 : Int) + 16 = -16 from by norm_num, Decimal.Cmp_zero_pos w (-16) hw]
    rfl

/-! ## `fromBigNumber` -/

/-- Ten to a power below `2^63`: the exact power. -/
theorem Decimal.PowTen_nat {d : Nat} (hd : d < 9223372036854775808) :
    Decimal.PowTen (toInt64 d) = some ⟨10 ^ d, 0⟩ := by
  rw [toInt64_of_lt hd]
  unfold Decimal.PowTen
  rw [if_pos (Int.natCast_nonneg d), Int.toNat_natCast]

/-- Ten to a negative power down to `-16`: the exact power, written at sixteen places. -/
theorem Decimal.PowTen_neg {k : Nat} (h1 : 1 ≤ k) (h2 : k ≤ 16) :
    Decimal.PowTen (-(k : Int)) = some ⟨10 ^ (16 - k), -16⟩ := by
  interval_cases k <;> rfl

/-- C16 (as amended): for every string that does not parse as a number and every
decimal-places count `d` (a `uint64`) whose conversion to `int64` is at least `-16`, that
is every `d < 2^63` and the sixteen largest `uint64` values, `fromBigNumber` returns the
float of the decimal zero, which is 0, and does not fail. -/
theorem fromBigNumber_unparsable {F : Type} [Zero F] (std : StdLib F) (number : Str)
    (decimals : Nat)
    (hparse : Decimal.NewFromString number = none)
    (hd : decimals < 18446744073709551616) (he : -16 ≤ toInt64 decimals)
    (hz : std.InexactFloat64 ⟨0, -16⟩ = 0) :
    fromBigNumber std number decimals = some 0 := by
  unfold fromBigNumber
  rw [hparse]
  simp only [Option.getD_none]
  by_cases h63 : decimals < 9223372036854775808
  · rw [Decimal.PowTen_nat h63, Option.some_bind,
      Decimal.zero_Div _ 0 (by positivity) (Or.inl rfl), Option.map_some', hz]
  · have hk : toInt64 decimals = -((18446744073709551616 - decimals : Nat) : Int) := by
      unfold toInt64 wrap64
      simp only [Int.ofNat_eq_coe]
      omega
    have h1 : 1 ≤ 18446744073709551616 - decimals := by omega
    have h2 : 18446744073709551616 - decimals ≤ 16 := by
      rw [hk] at he
      omega
    rw [hk, Decimal.PowTen_neg h1 h2, Option.some_bind,
      Decimal.zero_Div _ (-16) (by positivity) (Or.inr rfl), Option.map_some', hz]

/-- C16 on the text `abc` with three decimal places. -/
theorem fromBigNumber_unparsable_witness :
    Decimal.NewFromString "abc".toList = none ∧
      fromBigNumber fixedPoint "abc".toList 3 = some 0 :=
  ⟨rfl, fromBigNumber_unparsable fixedPoint "abc".toList 3 rfl (by decide) (by decide) rfl⟩

/-- C16 as stated fails for a decimal-places count whose `int64` value is below `-16`: at
`d = 2^64 - 17`, which is what position decimal places `-17` convert to, the modifier
`10^-17` rounds to zero at sixteen places and the division panics. -/
theorem fromBigNumber_unparsable_panics :
    Decimal.NewFromString "abc".toList = none ∧
      toUint64 (-17) = 18446744073709551599 ∧
      Decimal.PowTen (toInt64 18446744073709551599) = some ⟨0, -16⟩ ∧
      fromBigNumber fixedPoint "abc".toList 18446744073709551599 = none := by
  exact ⟨rfl, rfl, rfl, rfl⟩

/-- Comparing two decimals of the same exponent. -/
theorem Decimal.Cmp_same_exp (a b e : Int) : Decimal.Cmp ⟨a, e⟩ ⟨b, e⟩ = Int.sign (a - b) := by
  unfold Decimal.Cmp Decimal.rescale
  simp only [min_self, if_true]

/-- Adding two decimals of the same exponent. -/
theorem Decimal.Add_same_exp (a b e : Int) : Decimal.Add ⟨a, e⟩ ⟨b, e⟩ = ⟨a + b, e⟩ := by
  unfold Decimal.Add Decimal.rescale
  simp only [min_self, if_true]

/-- An integer divided by a power of ten: the quotient at sixteen places, rounded to the
nearest unit of `10^-16` with ties upward. -/
theorem Decimal.Div_pow_ten (v d : Nat) :
    ∃ qv : Int, Decimal.Div ⟨v, 0⟩ ⟨10 ^ d, 0⟩ = some ⟨qv, -16⟩ ∧
      2 * ((v : Int) * 10 ^ 16) - 10 ^ d < 2 * (10 ^ d * qv) ∧
      2 * (10 ^ d * qv) ≤ 2 * ((v : Int) * 10 ^ 16) + 10 ^ d ∧
      (((10 : Int) ^ d ∣ (v : Int) * 10 ^ 16) → 10 ^ d * qv = (v : Int) * 10 ^ 16) := by
  have hB : (0 : Int) < 10 ^ d := by positivity
  have hA : (0 : Int) ≤ (v : Int) * 10 ^ 16 := by positivity
  have hr0 := Int.emod_nonneg ((v : Int) * 10 ^ 16) hB.ne'
  have hr1 := Int.emod_lt_of_pos ((v : Int) * 10 ^ 16) hB
  have hdiv := Int.ediv_add_emod ((v : Int) * 10 ^ 16) (10 ^ d)
  have habsB : (((10 : Int) ^ d).natAbs : Int) = 10 ^ d := Int.natAbs_of_nonneg hB.le
  have habsr : ((((v : Int) * 10 ^ 16 % 10 ^ d).natAbs : Nat) : Int) = (v : Int) * 10 ^ 16 % 10 ^ d :=
    Int.natAbs_of_nonneg hr0
  have hq : Decimal.QuoRem ⟨v, 0⟩ ⟨10 ^ d, 0⟩ 16
      = some (⟨(v : Int) * 10 ^ 16 / 10 ^ d, -16⟩, ⟨(v : Int) * 10 ^ 16 % 10 ^ d, -16⟩) := by
    unfold Decimal.QuoRem
    simp only [if_neg hB.ne']
    rw [if_neg (by unfold MaxInt32 MinInt32; norm_num), if_neg (by norm_num)]
    have e16 : ((0 : Int) - 0 - -16).toNat = 16 := rfl
    simp only [e16]
    rw [Int.tdiv_eq_ediv hA hB.le, Int.tmod_eq_emod hA hB.le]
    norm_num
  have hsign : ¬ (Int.sign (v : Int) * Int.sign (10 ^ d) < 0) := by
    rw [Int.sign_eq_one_of_pos hB, mul_one, not_lt]
    exact Int.sign_nonneg.mpr (Int.natCast_nonneg v)
  unfold Decimal.Div Decimal.DivRound Decimal.DivisionPrecision
  rw [hq]
  simp only [habsB, habsr]
  rw [show (-16 : Int) + 16 = 0 from by norm_num, Decimal.Cmp_same_exp, if_neg hsign,
    Decimal.Add_same_exp]
  by_cases hlt : (v : Int) * 10 ^ 16 % 10 ^ d * 2 - 10 ^ d < 0
  · rw [if_pos (by rw [Int.sign_eq_neg_one_of_neg hlt]; norm_num)]
    refine ⟨_, rfl, by omega, by omega, fun hdvd => ?_⟩
    have := Int.emod_eq_zero_of_dvd hdvd
    omega
  · rw [if_neg (by rw [not_lt]; exact Int.sign_nonneg.mpr (not_lt.mp hlt))]
    refine ⟨_, rfl, by rw [mul_add, mul_one]; omega, by rw [mul_add, mul_one]; omega,
      fun hdvd => ?_⟩
    have := Int.emod_eq_zero_of_dvd hdvd
    omega

/-- C15 (as amended): for every non-negative integer `v` and every decimal-places count
`d < 2^63`, `fromBigNumber(str(v), d)` returns the float conversion of a decimal with
sixteen places whose coefficient is `v * 10^16 / 10^d` rounded to the nearest integer, ties
upward: the decimal is `v / 10^d` rounded to sixteen decimal places. It is exactly the
rational `v / 10^d` whenever `10^d` divides `v * 10^16`, in particular for every
`d ≤ 16`. -/
theorem fromBigNumber_exact {F : Type} (std : StdLib F) (v d : Nat)
    (hd : d < 9223372036854775808) :
    ∃ q : Decimal, fromBigNumber std (FormatUint v) d = some (std.InexactFloat64 q) ∧
      q.exp = -16 ∧
      2 * ((v : Int) * 10 ^ 16) - 10 ^ d < 2 * (10 ^ d * q.value) ∧
      2 * (10 ^ d * q.value) ≤ 2 * ((v : Int) * 10 ^ 16) + 10 ^ d ∧
      (((10 : Int) ^ d ∣ (v : Int) * 10 ^ 16) → q.toRat = (v : ℚ) / 10 ^ d) ∧
      (d ≤ 16 → q.toRat = (v : ℚ) / 10 ^ d) := by
  obtain ⟨qv, h1, h2, h3, h4⟩ := Decimal.Div_pow_ten v d
  have hexact : ((10 : Int) ^ d ∣ (v : Int) * 10 ^ 16) →
      (Decimal.mk qv (-16)).toRat = (v : ℚ) / 10 ^ d := by
    intro hdvd
    have he := h4 hdvd
    have heq : ((10 : ℚ) ^ d) * (qv : ℚ) = (v : ℚ) * 10 ^ 16 := by exact_mod_cast he
    unfold Decimal.toRat
    rw [eq_div_iff (by positivity)]
    show (qv : ℚ) * (10 : ℚ) ^ (-16 : ℤ) * 10 ^ d = v
    rw [zpow_neg, mul_assoc, mul_comm ((10 : ℚ) ^ (16 : ℤ))⁻¹, ← mul_assoc, mul_comm (qv : ℚ),
      heq]
    norm_num
    ring
  refine ⟨⟨qv, -16⟩, ?_, rfl, h2, h3, hexact, fun h16 => hexact ?_⟩
  · unfold fromBigNumber
    rw [NewFromString_FormatUint, Decimal.PowTen_nat hd]
    simp only [Option.getD_some]
    rw [Option.some_bind, h1, Option.map_some']
  · refine ⟨(v : Int) * 10 ^ (16 - d), ?_⟩
    rw [mul_comm ((10 : Int) ^ d), mul_assoc, ← pow_add, Nat.sub_add_cancel h16]

/-- C15 at eighteen decimal places, where `v = 10^18` divides evenly, and at `v = 1500`,
`d = 2`. -/
theorem fromBigNumber_exact_witness :
    (∃ q : Decimal, fromBigNumber decimalLib (FormatUint 1000000000000000000) 18
        = some (decimalLib.InexactFloat64 q) ∧
      q.exp = -16 ∧
      2 * (((1000000000000000000 : Nat) : Int) * 10 ^ 16) - 10 ^ 18 < 2 * (10 ^ 18 * q.value) ∧
      2 * (10 ^ 18 * q.value) ≤ 2 * (((1000000000000000000 : Nat) : Int) * 10 ^ 16) + 10 ^ 18 ∧
      (((10 : Int) ^ 18 ∣ ((1000000000000000000 : Nat) : Int) * 10 ^ 16) →
        q.toRat = ((1000000000000000000 : Nat) : ℚ) / 10 ^ 18) ∧
      (18 ≤ 16 → q.toRat = ((1000000000000000000 : Nat) : ℚ) / 10 ^ 18)) ∧
    fromBigNumber decimalLib (FormatUint 1000000000000000000) 18
      = some ⟨10000000000000000, -16⟩ ∧
    fromBigNumber decimalLib (FormatUint 1500) 2 = some ⟨150000000000000000, -16⟩ :=
  ⟨fromBigNumber_exact decimalLib 1000000000000000000 18 (by decide), rfl, rfl⟩

/-- C15 as stated fails beyond sixteen decimal places and for a decimal-places count of
`2^63` or more: for `v = 1`, `d = 17` the quotient is rounded to sixteen places before the
float conversion, so the decimal handed over is zero and not `1 / 10^17`; for `v = 15`,
`d = 17` it is `2 * 10^-16`; and for `d = 2^64 - 17` the call panics. -/
theorem fromBigNumber_rounds_at_sixteen :
    FormatUint 1 = "1".toList ∧
      fromBigNumber decimalLib (FormatUint 1) 17 = some ⟨0, -16⟩ ∧
      (Decimal.mk 0 (-16)).toRat = 0 ∧ (0 : ℚ) ≠ 1 / 10 ^ 17 ∧
      fromBigNumber decimalLib (FormatUint 15) 17 = some ⟨2, -16⟩ ∧
      fromBigNumber decimalLib (FormatUint 1) 18446744073709551599 = none := by
  refine ⟨rfl, rfl, ?_, by norm_num, rfl, rfl⟩
  unfold Decimal.toRat
  norm_num

end MarketDataApi
